import Mathlib

/-!
# A persistent trie (`src/primer/trie.cpp`)

A shallow embedding of `Trie::Get`, `Trie::Put` and `Trie::Remove`.

* Nodes are immutable and only ever shared through pointers to `const`, so
  a pointer to a node is modelled by the node itself.
* A key (`std::string_view`) is a `List Char`.
* The value stored in a `TrieNodeWithValue<T>` is a pair of the type `T`
  and an element of it: `Ty` is the collection of value types the template
  is instantiated at and `El T` the values of type `T`.
* The explicit `std::stack` of both writers is a list whose head is the top.
  `top` and `pop` on an empty stack and a dereference of a null pointer
  have no defined behaviour in the source: the embedding returns `none`.
* The loop `for (int i = key.size() - 1; i >= 0; i--)` is a traversal of the
  reversed key (keys are assumed shorter than `2^31` characters, so that
  the index fits an `int`).
-/

set_option autoImplicit false

namespace bustub

/-- Modelled from the spec: the node classes `TrieNode` and
`TrieNodeWithValue<T>` are declared in `primer/trie.h`, which is missing.
A node holds a mapping `children_` from characters to child nodes, and is
either a plain node (`value_ = none`) or a value node carrying one value of
some type `T` (`value_ = some ⟨T, v⟩`). -/
inductive TrieNode {Ty : Type} (El : Ty → Type) where
  | mk (children_ : List (Char × TrieNode El)) (value_ : Option ((T : Ty) × El T))

/-- Modelled from the spec: the handle `Trie` is declared in `primer/trie.h`,
which is missing. It holds a shared reference to a root node, or no root
(the empty trie). -/
structure Trie {Ty : Type} (El : Ty → Type) where
  root_ : Option (TrieNode El)

section Defs

variable {Ty : Type} {El : Ty → Type}

/-! ### `std::map<char, std::shared_ptr<const TrieNode>>` -/

/-- The map member `m.find(c)`: `none` stands for `m.end()`, and
`some n` for an iterator to the entry of `c`, whose mapped node
`m.at(c)` is `n`. -/
def Children.find {N : Type} : List (Char × N) → Char → Option N
  | [], _ => none
  | (c', n) :: rest, c => if c' = c then some n else Children.find rest c

/-- The assignment `m[c] = n`: rebinds the entry of `c`, or adds one. -/
def Children.assign {N : Type} : List (Char × N) → Char → N → List (Char × N)
  | [], c, n => [(c, n)]
  | (c', n') :: rest, c, n =>
    if c' = c then (c, n) :: rest else (c', n') :: Children.assign rest c n

/-- The map member `m.erase(c)`. -/
def Children.erase {N : Type} : List (Char × N) → Char → List (Char × N)
  | [], _ => []
  | (c', n') :: rest, c =>
    if c' = c then Children.erase rest c else (c', n') :: Children.erase rest c

/-- The map member `m.size()`. -/
def Children.size {N : Type} (m : List (Char × N)) : Nat := m.length

/-! ### Nodes -/

/-- The field `children_` of a node. -/
def TrieNode.children_ : TrieNode El → List (Char × TrieNode El)
  | .mk children _ => children

/-- The value of a value node, with its type. -/
def TrieNode.value_ : TrieNode El → Option ((T : Ty) × El T)
  | .mk _ value => value

/-- The field `is_value_node_`: set exactly by the constructors of
`TrieNodeWithValue<T>`. -/
def TrieNode.is_value_node_ (n : TrieNode El) : Bool := n.value_.isSome

/-- Modelled from the spec: the default constructor `TrieNode()` of
`primer/trie.h` (missing) builds a plain node without children. -/
def TrieNode.empty : TrieNode El := .mk [] none

/-- Modelled from the spec: the constructor
`TrieNodeWithValue<T>(std::shared_ptr<T> value)` of `primer/trie.h`
(missing) receives the value alone and builds a value node without
children. -/
def TrieNode.withValue (T : Ty) (value : El T) : TrieNode El := .mk [] (some ⟨T, value⟩)

/-- Modelled from the spec: `Clone()` of `primer/trie.h` (missing) copies
the children mapping of the node, and its value when it is a value node. -/
def TrieNode.Clone (n : TrieNode El) : TrieNode El := .mk n.children_ n.value_

/-- The statement `new_node->children_[c] = child` on a fresh clone. -/
def TrieNode.setChild (n : TrieNode El) (c : Char) (child : TrieNode El) : TrieNode El :=
  .mk (Children.assign n.children_ c child) n.value_

/-- The statement `new_node->children_.erase(c)` on a fresh clone. -/
def TrieNode.eraseChild (n : TrieNode El) (c : Char) : TrieNode El :=
  .mk (Children.erase n.children_ c) n.value_

/-- The cast `dynamic_cast<const TrieNodeWithValue<T> *>` followed by
`value_.get()`: succeeds exactly when the stored value has type `T`. -/
def castValue [DecidableEq Ty] (T : Ty) : ((T' : Ty) × El T') → Option (El T)
  | ⟨T', v⟩ => if h : T' = T then some (h ▸ v) else none

/-! ### `Trie::Get` -/

/-- The loop of `Trie::Get` (lines 15-18): from `current_node`, follow the
key one character at a time; `none` is the early `return nullptr`. -/
def Get.walk : TrieNode El → List Char → Option (TrieNode El)
  | current_node, [] => some current_node
  | current_node, c :: key =>
    match Children.find current_node.children_ c with
    | none => none
    | some child => Get.walk child key

/-- The template `Trie::Get<T>` (lines 11-22); `none` is `nullptr`. -/
def Trie.Get [DecidableEq Ty] (T : Ty) (t : Trie El) (key : List Char) : Option (El T) :=
  match t.root_ with
  | none => none
  | some root =>
    match Get.walk root key with
    | none => none
    | some current_node =>
      if !current_node.is_value_node_ then none
      else
        match current_node.value_ with
        | none => none
        | some value => castValue T value

/-! ### `Trie::Put` -/

/-- The first loop of `Trie::Put` (lines 43-50): for each character, push
the child of the top of the stack, or a new empty node. -/
def Put.push : List Char → List (TrieNode El) → Option (List (TrieNode El))
  | [], s => some s
  | c :: key, s =>
    match s with
    | [] => none
    | query_nod :: _ =>
      match Children.find query_nod.children_ c with
      | some child => Put.push key (child :: s)
      | none => Put.push key (TrieNode.empty :: s)

/-- The second loop of `Trie::Put` (lines 56-62), over the characters of
the key from the last to the first: clone the top of the stack, bind the
character to `cur_node`, pop. -/
def Put.rebuild : List Char → List (TrieNode El) → TrieNode El → Option (TrieNode El)
  | [], _, cur_node => some cur_node
  | c :: rkey, s, cur_node =>
    match s with
    | [] => none
    | top :: s' => Put.rebuild rkey s' (top.Clone.setChild c cur_node)

/-- The template `Trie::Put<T>` (lines 35-64). -/
def Trie.Put (T : Ty) (t : Trie El) (key : List Char) (value : El T) : Option (Trie El) :=
  let s0 : List (TrieNode El) :=
    match t.root_ with
    | none => [TrieNode.empty]
    | some root => [root]
  match Put.push key s0 with
  | none => none
  | some s =>
    let cur_node : TrieNode El := TrieNode.withValue T value
    match s with
    | [] => none
    | _ :: s' =>
      match Put.rebuild key.reverse s' cur_node with
      | none => none
      | some cur_node' => some ⟨some cur_node'⟩

/-! ### `Trie::Remove` -/

/-- The first loop of `Trie::Remove` (lines 78-84). The node `query_node`
is the root throughout: the loop never reassigns it. The result
`none` is the dereference of a null `query_node`, `some none` is the
early `return *this`, and `some (some s)` the stack after the loop. -/
def Remove.push (query_node : Option (TrieNode El)) :
    List Char → List (Option (TrieNode El)) → Option (Option (List (Option (TrieNode El))))
  | [], s => some (some s)
  | c :: key, s =>
    match query_node with
    | none => none
    | some q =>
      match Children.find q.children_ c with
      | some child => Remove.push query_node key (some child :: s)
      | none => some none

/-- The second loop of `Trie::Remove` (lines 87-106), over the characters
of the key from the last to the first. -/
def Remove.rebuild :
    List Char → List (Option (TrieNode El)) → Option (TrieNode El) → Option (Option (TrieNode El))
  | [], _, cur_node => some cur_node
  | c :: rkey, s, cur_node =>
    match s with
    | [] => some cur_node
    | none :: _ => none
    | some top :: s' =>
      if !top.is_value_node_ && Children.size top.children_ ≤ 1 then
        Remove.rebuild rkey s' cur_node
      else
        let new_node := top.Clone
        match cur_node with
        | some cur => Remove.rebuild rkey s' (some (new_node.setChild c cur))
        | none => Remove.rebuild rkey s' (some (new_node.eraseChild c))

/-- The member `Trie::Remove` (lines 73-107); `none` stands for a run
without defined behaviour. -/
def Trie.Remove (t : Trie El) (key : List Char) : Option (Trie El) :=
  match Remove.push t.root_ key [t.root_] with
  | none => none
  | some none => some t
  | some (some s) =>
    match s with
    | [] => none
    | _ :: s' =>
      match Remove.rebuild key.reverse s' none with
      | none => none
      | some cur_node => some ⟨cur_node⟩

/-- The empty trie: a handle without root. -/
def Trie.emptyTrie : Trie El := ⟨none⟩

/-- A value together with the type it is stored with. -/
abbrev Value (El : Ty → Type) : Type := (T : Ty) × El T

/-- A sequence of `Put` calls applied in order; `none` as soon as one of
them has no result. -/
def putAll (t : Trie El) : List (List Char × Value El) → Option (Trie El)
  | [] => some t
  | (k, v) :: rest =>
    match t.Put v.1 k v.2 with
    | none => none
    | some t' => putAll t' rest

end Defs

/-! ### Auxiliary definitions for the proofs -/

section Aux

variable {Ty : Type} {El : Ty → Type}

/-- What a lookup of type `T` reads off the node it lands on (lines 19-22
of `Trie::Get`). -/
def TrieNode.valueAs [DecidableEq Ty] (T : Ty) (n : TrieNode El) : Option (El T) :=
  match n.value_ with
  | none => none
  | some value => castValue T value

/-- The lookup of a key below a given node: the walk, then the read. -/
def TrieNode.lookup [DecidableEq Ty] (T : Ty) (n : TrieNode El) (key : List Char) :
    Option (El T) :=
  match Get.walk n key with
  | none => none
  | some m => m.valueAs T

/-- The node the two loops of `Trie::Put` build for a position whose old
node is `n` when the rest of the key is `key` and the terminal node is
`cur_node`. -/
def Put.node (cur_node : TrieNode El) : TrieNode El → List Char → TrieNode El
  | _, [] => cur_node
  | n, c :: key =>
    n.Clone.setChild c
      (Put.node cur_node ((Children.find n.children_ c).getD TrieNode.empty) key)

/-- The root `Trie::Put` starts its descent from: the root of the trie, or
a new empty node. -/
def Trie.rootOrEmpty (t : Trie El) : TrieNode El := t.root_.getD TrieNode.empty

/-- The walk in the words of the specification: `Reaches root key n` says
that each character of `key` in turn has a matching child, starting from
`root`, and that `n` is the node reached after consuming all of `key`. -/
inductive Reaches : TrieNode El → List Char → TrieNode El → Prop
  | done (n : TrieNode El) : Reaches n [] n
  | step {n child m : TrieNode El} {c : Char} {key : List Char} :
      Children.find n.children_ c = some child → Reaches child key m →
      Reaches n (c :: key) m

/-! ### The invariants of the data model -/

mutual
/-- The second invariant of the data model, below a node: every node,
this one included, is a value node or has at least one child. -/
def TrieNode.noEmptyPlain : TrieNode El → Bool
  | .mk children value =>
    (value.isSome || !children.isEmpty) && Children.noEmptyPlain children
/-- The same, for every node below the entries of a children mapping. -/
def Children.noEmptyPlain : List (Char × TrieNode El) → Bool
  | [] => true
  | p :: rest => Entry.noEmptyPlain p && Children.noEmptyPlain rest
/-- The same, for the node of one entry. -/
def Entry.noEmptyPlain : Char × TrieNode El → Bool
  | (_, n) => n.noEmptyPlain
end

mutual
/-- The keys of a `std::map` are unique: below a node, no children mapping
has two entries for one character. -/
def TrieNode.keysDistinct : TrieNode El → Bool
  | .mk children _ =>
    decide (children.map Prod.fst).Nodup && Children.keysDistinct children
/-- The same, for every node below the entries of a children mapping. -/
def Children.keysDistinct : List (Char × TrieNode El) → Bool
  | [] => true
  | p :: rest => Entry.keysDistinct p && Children.keysDistinct rest
/-- The same, for the node of one entry. -/
def Entry.keysDistinct : Char × TrieNode El → Bool
  | (_, n) => n.keysDistinct
end

/-- No plain node without children is reachable from the root; the empty
trie has no node at all. -/
def Trie.noEmptyPlain (t : Trie El) : Bool :=
  match t.root_ with
  | none => true
  | some root => root.noEmptyPlain

/-- Every children mapping reachable from the root has unique keys. -/
def Trie.keysDistinct (t : Trie El) : Bool :=
  match t.root_ with
  | none => true
  | some root => root.keysDistinct

/-- Every entry of a stack of `Trie::Remove` is a node with the property `P`. -/
def Remove.StackAll (P : TrieNode El → Prop) (s : List (Option (TrieNode El))) : Prop :=
  ∀ e ∈ s, ∃ x, e = some x ∧ P x

end Aux

/-! ### The same code over a memory of shared nodes

The embedding above reads a pointer to an immutable node as the node. To
state that the writers leave the nodes of their input alone, the
operations are embedded a second time over an explicit memory: a node
lives at an address, a `std::shared_ptr<const TrieNode>` is an address (or
`none` for `nullptr`), `std::make_shared` and `Clone()` allocate at a fresh
address, and the statements on `new_node->children_` write through the
address of the clone. Reading through an address that holds no node has no
defined behaviour (`none`). -/

section Memory

variable {Ty : Type} {El : Ty → Type}

/-- A node in memory: its children are addresses. -/
structure Mem.Node {Ty : Type} (El : Ty → Type) where
  children_ : List (Char × Nat)
  value_ : Option (Value El)

/-- The memory: the node at address `a` is the entry of index `a`. -/
abbrev Mem.Heap {Ty : Type} (El : Ty → Type) : Type := List (Mem.Node El)

/-- Allocation of a new node: the memory after it, and the fresh address. -/
def Mem.alloc (h : Mem.Heap El) (n : Mem.Node El) : Mem.Heap El × Nat :=
  (h ++ [n], h.length)

/-- A read through an address. -/
def Mem.read (h : Mem.Heap El) (a : Nat) : Option (Mem.Node El) := h[a]?

/-- A write of the children mapping of the node at an address. -/
def Mem.writeChildren (h : Mem.Heap El) (a : Nat) (f : List (Char × Nat) → List (Char × Nat)) :
    Option (Mem.Heap El) :=
  match Mem.read h a with
  | none => none
  | some n => some (h.set a ⟨f n.children_, n.value_⟩)

/-- The loop of `Trie::Get` (lines 15-18): the outer `none` is a read
through a dangling address, `some none` is the early `return nullptr`. -/
def Mem.Get.walk (h : Mem.Heap El) : Nat → List Char → Option (Option Nat)
  | current_node, [] => some (some current_node)
  | current_node, c :: key =>
    match Mem.read h current_node with
    | none => none
    | some node =>
      match Children.find node.children_ c with
      | none => some none
      | some child => Mem.Get.walk h child key

/-- The template `Trie::Get<T>` (lines 11-22) of the trie of root `root_`. -/
def Mem.Get [DecidableEq Ty] (T : Ty) (h : Mem.Heap El) (root_ : Option Nat)
    (key : List Char) : Option (Option (El T)) :=
  match root_ with
  | none => some none
  | some root =>
    match Mem.Get.walk h root key with
    | none => none
    | some none => some none
    | some (some current_node) =>
      match Mem.read h current_node with
      | none => none
      | some node =>
        match node.value_ with
        | none => some none
        | some value => some (castValue T value)

/-- The first loop of `Trie::Put` (lines 43-50). -/
def Mem.Put.push : List Char → Mem.Heap El → List Nat → Option (Mem.Heap El × List Nat)
  | [], h, s => some (h, s)
  | c :: key, h, s =>
    match s with
    | [] => none
    | query_nod :: _ =>
      match Mem.read h query_nod with
      | none => none
      | some node =>
        match Children.find node.children_ c with
        | some child => Mem.Put.push key h (child :: s)
        | none =>
          let (h', fresh) := Mem.alloc h ⟨[], none⟩
          Mem.Put.push key h' (fresh :: s)

/-- The second loop of `Trie::Put` (lines 56-62). -/
def Mem.Put.rebuild : List Char → Mem.Heap El → List Nat → Nat → Option (Mem.Heap El × Nat)
  | [], h, _, cur_node => some (h, cur_node)
  | c :: rkey, h, s, cur_node =>
    match s with
    | [] => none
    | top :: s' =>
      match Mem.read h top with
      | none => none
      | some node =>
        let (h1, new_node) := Mem.alloc h ⟨node.children_, node.value_⟩
        match Mem.writeChildren h1 new_node (fun m => Children.assign m c cur_node) with
        | none => none
        | some h2 => Mem.Put.rebuild rkey h2 s' new_node

/-- The template `Trie::Put<T>` (lines 35-64): the memory after the call
and the root of the new trie. -/
def Mem.Put (T : Ty) (h : Mem.Heap El) (root_ : Option Nat) (key : List Char) (value : El T) :
    Option (Mem.Heap El × Option Nat) :=
  let (h0, s0) : Mem.Heap El × List Nat :=
    match root_ with
    | none =>
      let (h', fresh) := Mem.alloc h ⟨[], none⟩
      (h', [fresh])
    | some root => (h, [root])
  match Mem.Put.push key h0 s0 with
  | none => none
  | some (h1, s) =>
    let (h2, cur_node) := Mem.alloc h1 ⟨[], some ⟨T, value⟩⟩
    match s with
    | [] => none
    | _ :: s' =>
      match Mem.Put.rebuild key.reverse h2 s' cur_node with
      | none => none
      | some (h3, cur_node') => some (h3, some cur_node')

/-- The first loop of `Trie::Remove` (lines 78-84), which only reads. -/
def Mem.Remove.push (h : Mem.Heap El) (query_node : Option Nat) :
    List Char → List (Option Nat) → Option (Option (List (Option Nat)))
  | [], s => some (some s)
  | c :: key, s =>
    match query_node with
    | none => none
    | some q =>
      match Mem.read h q with
      | none => none
      | some node =>
        match Children.find node.children_ c with
        | some child => Mem.Remove.push h query_node key (some child :: s)
        | none => some none

/-- The second loop of `Trie::Remove` (lines 87-106). -/
def Mem.Remove.rebuild :
    List Char → Mem.Heap El → List (Option Nat) → Option Nat →
      Option (Mem.Heap El × Option Nat)
  | [], h, _, cur_node => some (h, cur_node)
  | c :: rkey, h, s, cur_node =>
    match s with
    | [] => some (h, cur_node)
    | none :: _ => none
    | some top :: s' =>
      match Mem.read h top with
      | none => none
      | some node =>
        if !node.value_.isSome && Children.size node.children_ ≤ 1 then
          Mem.Remove.rebuild rkey h s' cur_node
        else
          let (h1, new_node) := Mem.alloc h ⟨node.children_, node.value_⟩
          let write : List (Char × Nat) → List (Char × Nat) :=
            match cur_node with
            | some cur => fun m => Children.assign m c cur
            | none => fun m => Children.erase m c
          match Mem.writeChildren h1 new_node write with
          | none => none
          | some h2 => Mem.Remove.rebuild rkey h2 s' (some new_node)

/-- The member `Trie::Remove` (lines 73-107): the memory after the call and
the root of the new trie. -/
def Mem.Remove (h : Mem.Heap El) (root_ : Option Nat) (key : List Char) :
    Option (Mem.Heap El × Option Nat) :=
  match Mem.Remove.push h root_ key [root_] with
  | none => none
  | some none => some (h, root_)
  | some (some s) =>
    match s with
    | [] => none
    | _ :: s' => Mem.Remove.rebuild key.reverse h s' none

/-- Every node of the memory `h` is still there, as it was, in `h'`. -/
def Mem.Extends (h h' : Mem.Heap El) : Prop :=
  ∀ (a : Nat) (n : Mem.Node El), Mem.read h a = some n → Mem.read h' a = some n

/-- No node of the memory holds a dangling address. -/
def Mem.Closed (h : Mem.Heap El) : Prop :=
  ∀ (a : Nat) (n : Mem.Node El), Mem.read h a = some n → ∀ p ∈ n.children_, p.2 < h.length

end Memory

/-! ### The value types of the explicit instantiations (lines 120-127) -/

/-- The copyable value types `Put` and `Get` are instantiated at. -/
inductive ValueType where
  | uint32
  | uint64
  | string
  deriving DecidableEq

/-- The values of each type. -/
def ValueType.El : ValueType → Type
  | .uint32 => Nat
  | .uint64 => Nat
  | .string => String

/-- The trie of `Put("a", 1)`, `Put("ab", 2)` from the empty trie, with
values of type `uint32`. -/
def sampleTrie : Trie ValueType.El :=
  ⟨some (.mk [('a', .mk [('b', .mk [] (some ⟨.uint32, (2 : Nat)⟩))]
    (some ⟨.uint32, (1 : Nat)⟩))] none)⟩

/-- The memory after `Put("a", 1)` on the empty trie in an empty memory;
the root of the new trie is at address 3. -/
def Mem.sampleHeap : Mem.Heap ValueType.El :=
  [⟨[], none⟩, ⟨[], none⟩, ⟨[], some ⟨.uint32, (1 : Nat)⟩⟩, ⟨[('a', 2)], none⟩]

/-! ## Lemmas -/

section Lemmas

variable {Ty : Type} {El : Ty → Type}

theorem Children.find_assign_same {N : Type} (m : List (Char × N)) (c : Char) (n : N) :
    Children.find (Children.assign m c n) c = some n := by
  induction m with
  | nil => simp [Children.assign, Children.find]
  | cons p rest ih =>
    obtain ⟨c', n'⟩ := p
    by_cases h : c' = c
    · simp [Children.assign, Children.find, h]
    · simp [Children.assign, Children.find, h, ih]

theorem Children.find_assign_ne {N : Type} (m : List (Char × N)) (c c' : Char) (n : N)
    (h : c' ≠ c) : Children.find (Children.assign m c n) c' = Children.find m c' := by
  induction m with
  | nil => simp [Children.assign, Children.find, Ne.symm h]
  | cons p rest ih =>
    obtain ⟨d, n'⟩ := p
    by_cases hd : d = c
    · subst hd
      simp [Children.assign, Children.find, Ne.symm h]
    · by_cases hd' : d = c'
      · subst hd'
        simp [Children.assign, Children.find, hd]
      · simp [Children.assign, Children.find, hd, hd', ih]

theorem TrieNode.children_setChild (n : TrieNode El) (c : Char) (x : TrieNode El) :
    (n.Clone.setChild c x).children_ = Children.assign n.children_ c x := rfl

theorem TrieNode.value_setChild (n : TrieNode El) (c : Char) (x : TrieNode El) :
    (n.Clone.setChild c x).value_ = n.value_ := rfl

/-- The two loops of `Trie::Put` together: the descent from `n` pushes the
path, and the ascent over the reversed key consumes exactly what was pushed
and leaves `Put.node`. -/
theorem Put.push_rebuild (key : List Char) :
    ∀ (n : TrieNode El) (s : List (TrieNode El)),
      ∃ top rest, Put.push key (n :: s) = some (top :: rest) ∧
        ∀ (cur : TrieNode El) (rk : List Char),
          Put.rebuild (key.reverse ++ rk) rest cur = Put.rebuild rk s (Put.node cur n key) := by
  induction key with
  | nil =>
    intro n s
    exact ⟨n, s, rfl, fun cur rk => by simp [Put.node]⟩
  | cons c key ih =>
    intro n s
    obtain ⟨top, rest, hpush, hreb⟩ :=
      ih ((Children.find n.children_ c).getD TrieNode.empty) (n :: s)
    refine ⟨top, rest, ?_, ?_⟩
    · rw [← hpush]
      cases hf : Children.find n.children_ c <;> simp [Put.push, hf]
    · intro cur rk
      have := hreb cur (c :: rk)
      simp only [List.reverse_cons, List.append_assoc, List.singleton_append]
      rw [this]
      simp [Put.rebuild, Put.node]

/-- A run of `Trie::Put` always has a result, which is `Put.node` at the root. -/
theorem Trie.Put_eq (T : Ty) (t : Trie El) (key : List Char) (value : El T) :
    t.Put T key value = some ⟨some (Put.node (TrieNode.withValue T value) t.rootOrEmpty key)⟩ := by
  obtain ⟨top, rest, hpush, hreb⟩ := Put.push_rebuild key t.rootOrEmpty ([] : List (TrieNode El))
  have h0 : (match t.root_ with
      | none => [TrieNode.empty]
      | some root => [root]) = [t.rootOrEmpty] := by
    unfold Trie.rootOrEmpty
    cases t.root_ <;> rfl
  have h1 := hreb (TrieNode.withValue T value) []
  simp only [List.append_nil] at h1
  simp only [Trie.Put, h0, hpush, h1, Put.rebuild]

/-- Below the node `Trie::Put` builds, the key itself leads to the
terminal node. -/
theorem Put.walk_node_append (cur : TrieNode El) (key : List Char) :
    ∀ (n : TrieNode El) (k'' : List Char),
      Get.walk (Put.node cur n key) (key ++ k'') = Get.walk cur k'' := by
  induction key with
  | nil => intro n k''; rfl
  | cons c key ih =>
    intro n k''
    simp only [Put.node, List.cons_append, Get.walk, TrieNode.children_setChild,
      Children.find_assign_same]
    exact ih _ k''

/-! ### Children mappings -/

theorem Children.mem_of_find {N : Type} (m : List (Char × N)) (c : Char) (n : N)
    (h : Children.find m c = some n) : (c, n) ∈ m := by
  induction m with
  | nil => cases h
  | cons p rest ih =>
    obtain ⟨c', n'⟩ := p
    by_cases hc : c' = c
    · subst hc
      simp only [Children.find, if_true, Option.some.injEq] at h
      subst h
      exact List.mem_cons_self _ _
    · simp only [Children.find, hc, if_false] at h
      exact List.mem_cons_of_mem _ (ih h)

theorem Children.mem_assign {N : Type} (m : List (Char × N)) (c : Char) (n : N)
    (p : Char × N) (h : p ∈ Children.assign m c n) : p ∈ m ∨ p = (c, n) := by
  induction m with
  | nil =>
    simp only [Children.assign, List.mem_singleton] at h
    exact Or.inr h
  | cons q rest ih =>
    obtain ⟨c', n'⟩ := q
    by_cases hc : c' = c
    · simp only [Children.assign, hc, if_true, List.mem_cons] at h
      rcases h with h | h
      · exact Or.inr h
      · exact Or.inl (List.mem_cons_of_mem _ h)
    · simp only [Children.assign, hc, if_false, List.mem_cons] at h
      rcases h with h | h
      · exact Or.inl (h ▸ List.mem_cons_self _ _)
      · rcases ih h with h' | h'
        · exact Or.inl (List.mem_cons_of_mem _ h')
        · exact Or.inr h'

theorem Children.assign_ne_nil {N : Type} (m : List (Char × N)) (c : Char) (n : N) :
    Children.assign m c n ≠ [] := by
  cases m with
  | nil => simp [Children.assign]
  | cons q rest =>
    obtain ⟨c', n'⟩ := q
    by_cases hc : c' = c <;> simp [Children.assign, hc]

theorem Children.erase_eq_filter {N : Type} (m : List (Char × N)) (c : Char) :
    Children.erase m c = m.filter (fun p => !decide (p.1 = c)) := by
  induction m with
  | nil => rfl
  | cons q rest ih =>
    obtain ⟨c', n'⟩ := q
    by_cases hc : c' = c <;> simp [Children.erase, List.filter_cons, hc, ih]

theorem Children.mem_erase {N : Type} (m : List (Char × N)) (c : Char) (p : Char × N)
    (h : p ∈ Children.erase m c) : p ∈ m := by
  rw [Children.erase_eq_filter] at h
  exact List.mem_of_mem_filter h

theorem Children.keys_assign {N : Type} (m : List (Char × N)) (c : Char) (n : N)
    (h : (m.map Prod.fst).Nodup) : ((Children.assign m c n).map Prod.fst).Nodup := by
  induction m with
  | nil => simp [Children.assign]
  | cons q rest ih =>
    obtain ⟨c', n'⟩ := q
    rw [List.map_cons, List.nodup_cons] at h
    by_cases hc : c' = c
    · subst hc
      simp only [Children.assign, if_true, List.map_cons, List.nodup_cons]
      exact h
    · simp only [Children.assign, hc, if_false, List.map_cons, List.nodup_cons]
      refine ⟨?_, ih h.2⟩
      intro hmem
      obtain ⟨p, hp, hp1⟩ := List.mem_map.1 hmem
      rcases Children.mem_assign rest c n p hp with hp' | hp'
      · exact h.1 (List.mem_map.2 ⟨p, hp', hp1⟩)
      · subst hp'
        exact hc hp1.symm

theorem Children.keys_erase {N : Type} (m : List (Char × N)) (c : Char)
    (h : (m.map Prod.fst).Nodup) : ((Children.erase m c).map Prod.fst).Nodup := by
  rw [Children.erase_eq_filter]
  exact h.sublist ((List.filter_sublist m).map Prod.fst)

/-- Erasing one key from a map with at least two entries leaves an entry. -/
theorem Children.erase_ne_nil {N : Type} (m : List (Char × N)) (c : Char)
    (h : (m.map Prod.fst).Nodup) (hsize : 1 < Children.size m) :
    Children.erase m c ≠ [] := by
  match m, h, hsize with
  | (c1, n1) :: (c2, n2) :: rest, h, _ =>
    have hne : c1 ≠ c2 := by
      intro heq
      simp [heq] at h
    by_cases h1 : c1 = c
    · have h2 : c2 ≠ c := fun h2 => hne (h1.trans h2.symm)
      simp [Children.erase, h1, h2]
    · simp [Children.erase, h1]

/-! ### The invariants, unfolded -/

theorem Children.noEmptyPlain_iff_forall (m : List (Char × TrieNode El)) :
    Children.noEmptyPlain m = true ↔ ∀ p ∈ m, p.2.noEmptyPlain = true := by
  induction m with
  | nil => simp [Children.noEmptyPlain]
  | cons q rest ih =>
    obtain ⟨c, n⟩ := q
    simp [Children.noEmptyPlain, Entry.noEmptyPlain, ih]

theorem TrieNode.noEmptyPlain_iff (n : TrieNode El) :
    n.noEmptyPlain = true ↔
      (n.value_.isSome = true ∨ n.children_ ≠ []) ∧
        ∀ p ∈ n.children_, p.2.noEmptyPlain = true := by
  obtain ⟨children, value⟩ := n
  rw [← Children.noEmptyPlain_iff_forall]
  cases children <;> simp [TrieNode.noEmptyPlain, TrieNode.value_, TrieNode.children_]

theorem Children.keysDistinct_iff_forall (m : List (Char × TrieNode El)) :
    Children.keysDistinct m = true ↔ ∀ p ∈ m, p.2.keysDistinct = true := by
  induction m with
  | nil => simp [Children.keysDistinct]
  | cons q rest ih =>
    obtain ⟨c, n⟩ := q
    simp [Children.keysDistinct, Entry.keysDistinct, ih]

theorem TrieNode.keysDistinct_iff (n : TrieNode El) :
    n.keysDistinct = true ↔
      (n.children_.map Prod.fst).Nodup ∧ ∀ p ∈ n.children_, p.2.keysDistinct = true := by
  obtain ⟨children, value⟩ := n
  rw [← Children.keysDistinct_iff_forall]
  simp [TrieNode.keysDistinct, TrieNode.children_]

/-- A clone with one child rebound keeps both invariants. -/
theorem TrieNode.setChild_ok (top cur : TrieNode El) (c : Char)
    (htop : ∀ p ∈ top.children_, p.2.noEmptyPlain = true) (hcur : cur.noEmptyPlain = true) :
    (top.Clone.setChild c cur).noEmptyPlain = true := by
  rw [TrieNode.noEmptyPlain_iff, TrieNode.children_setChild]
  refine ⟨Or.inr (Children.assign_ne_nil _ _ _), ?_⟩
  intro p hp
  rcases Children.mem_assign _ _ _ _ hp with h | h
  · exact htop p h
  · subst h
    exact hcur

theorem TrieNode.setChild_keysDistinct (top cur : TrieNode El) (c : Char)
    (htop : top.keysDistinct = true) (hcur : cur.keysDistinct = true) :
    (top.Clone.setChild c cur).keysDistinct = true := by
  rw [TrieNode.keysDistinct_iff] at htop ⊢
  rw [TrieNode.children_setChild]
  refine ⟨Children.keys_assign _ _ _ htop.1, ?_⟩
  intro p hp
  rcases Children.mem_assign _ _ _ _ hp with h | h
  · exact htop.2 p h
  · subst h
    exact hcur

theorem TrieNode.children_eraseChild (n : TrieNode El) (c : Char) :
    (n.Clone.eraseChild c).children_ = Children.erase n.children_ c := rfl

theorem TrieNode.value_eraseChild (n : TrieNode El) (c : Char) :
    (n.Clone.eraseChild c).value_ = n.value_ := rfl

/-- A clone without one child keeps both invariants when the node it is
cloned from is a value node or has more than one child. -/
theorem TrieNode.eraseChild_ok (top : TrieNode El) (c : Char)
    (htop : top.noEmptyPlain = true) (hkeys : top.keysDistinct = true)
    (hkeep : ¬ ((!top.is_value_node_ && decide (Children.size top.children_ ≤ 1)) = true)) :
    (top.Clone.eraseChild c).noEmptyPlain = true := by
  rw [TrieNode.noEmptyPlain_iff] at htop ⊢
  rw [TrieNode.keysDistinct_iff] at hkeys
  rw [TrieNode.children_eraseChild, TrieNode.value_eraseChild]
  refine ⟨?_, fun p hp => htop.2 p (Children.mem_erase _ _ _ hp)⟩
  by_cases hv : top.value_.isSome = true
  · exact Or.inl hv
  · right
    apply Children.erase_ne_nil _ _ hkeys.1
    simp only [TrieNode.is_value_node_, Bool.and_eq_true, Bool.not_eq_true', decide_eq_true_eq,
      not_and, not_le] at hkeep
    exact hkeep (by simpa using hv)

theorem TrieNode.eraseChild_keysDistinct (top : TrieNode El) (c : Char)
    (hkeys : top.keysDistinct = true) : (top.Clone.eraseChild c).keysDistinct = true := by
  rw [TrieNode.keysDistinct_iff] at hkeys ⊢
  rw [TrieNode.children_eraseChild]
  exact ⟨Children.keys_erase _ _ hkeys.1, fun p hp => hkeys.2 p (Children.mem_erase _ _ _ hp)⟩

/-! ### The invariants along `Put` and `Remove` -/

theorem Children.find_noEmptyPlain (n : TrieNode El) (c : Char)
    (hn : ∀ p ∈ n.children_, p.2.noEmptyPlain = true) :
    ∀ p ∈ ((Children.find n.children_ c).getD TrieNode.empty).children_,
      p.2.noEmptyPlain = true := by
  cases hf : Children.find n.children_ c with
  | none =>
    intro p hp
    cases hp
  | some child =>
    have := hn _ (Children.mem_of_find _ _ _ hf)
    exact ((TrieNode.noEmptyPlain_iff child).1 this).2

theorem Children.find_keysDistinct (n : TrieNode El) (c : Char)
    (hn : n.keysDistinct = true) :
    ((Children.find n.children_ c).getD TrieNode.empty).keysDistinct = true := by
  cases hf : Children.find n.children_ c with
  | none => rfl
  | some child =>
    exact ((TrieNode.keysDistinct_iff n).1 hn).2 _ (Children.mem_of_find _ _ _ hf)

/-- The node `Trie::Put` builds has no plain node without children when
the subtrees it shares have none. -/
theorem Put.node_noEmptyPlain (cur : TrieNode El) (hcur : cur.noEmptyPlain = true)
    (key : List Char) :
    ∀ n : TrieNode El, (∀ p ∈ n.children_, p.2.noEmptyPlain = true) →
      (Put.node cur n key).noEmptyPlain = true := by
  induction key with
  | nil => intro n _; exact hcur
  | cons c key ih =>
    intro n hn
    exact TrieNode.setChild_ok n _ c hn (ih _ (Children.find_noEmptyPlain n c hn))

/-- The node `Trie::Put` builds has maps with unique keys. -/
theorem Put.node_keysDistinct (cur : TrieNode El) (hcur : cur.keysDistinct = true)
    (key : List Char) :
    ∀ n : TrieNode El, n.keysDistinct = true → (Put.node cur n key).keysDistinct = true := by
  induction key with
  | nil => intro n _; exact hcur
  | cons c key ih =>
    intro n hn
    exact TrieNode.setChild_keysDistinct n _ c hn (ih _ (Children.find_keysDistinct n c hn))

/-- The first loop of `Trie::Remove` on a trie with a root: it returns
early, or leaves a stack that grew by children of the root. -/
theorem Remove.push_root (root : TrieNode El) (P : TrieNode El → Prop)
    (hP : ∀ c child, Children.find root.children_ c = some child → P child)
    (key : List Char) :
    ∀ s : List (Option (TrieNode El)), Remove.StackAll P s →
      Remove.push (some root) key s = some none ∨
        ∃ pre, Remove.push (some root) key s = some (some (pre ++ s)) ∧
          Remove.StackAll P (pre ++ s) := by
  induction key with
  | nil =>
    intro s hs
    exact Or.inr ⟨[], rfl, hs⟩
  | cons c key ih =>
    intro s hs
    cases hf : Children.find root.children_ c with
    | none =>
      left
      simp [Remove.push, hf]
    | some child =>
      have hs' : Remove.StackAll P (some child :: s) := by
        intro e he
        rcases List.mem_cons.1 he with h | h
        · exact ⟨child, h, hP c child hf⟩
        · exact hs e h
      rcases ih (some child :: s) hs' with h | ⟨pre, h, hall⟩
      · left
        simp [Remove.push, hf, h]
      · right
        refine ⟨pre ++ [some child], ?_, ?_⟩
        · simp [Remove.push, hf, h]
        · simpa using hall

/-- The second loop of `Trie::Remove` on a stack of nodes that satisfy both
invariants: it has a result, null or a node that satisfies both. -/
theorem Remove.rebuild_ok (rkey : List Char) :
    ∀ (s : List (Option (TrieNode El))) (cur : Option (TrieNode El)),
      Remove.StackAll (fun x => x.noEmptyPlain = true ∧ x.keysDistinct = true) s →
      (∀ y, cur = some y → y.noEmptyPlain = true ∧ y.keysDistinct = true) →
      ∃ r, Remove.rebuild rkey s cur = some r ∧
        ∀ y, r = some y → y.noEmptyPlain = true ∧ y.keysDistinct = true := by
  induction rkey with
  | nil =>
    intro s cur _ hcur
    exact ⟨cur, rfl, hcur⟩
  | cons c rkey ih =>
    intro s cur hs hcur
    cases s with
    | nil => exact ⟨cur, rfl, hcur⟩
    | cons e s' =>
      obtain ⟨top, rfl, htop, hkeys⟩ := hs e (List.mem_cons_self _ _)
      have hs' : Remove.StackAll (fun x => x.noEmptyPlain = true ∧ x.keysDistinct = true) s' :=
        fun e he => hs e (List.mem_cons_of_mem _ he)
      by_cases hp : (!top.is_value_node_ && decide (Children.size top.children_ ≤ 1)) = true
      · obtain ⟨r, hr, hok⟩ := ih s' cur hs' hcur
        exact ⟨r, by simp [Remove.rebuild, hp, hr], hok⟩
      · cases cur with
        | none =>
          obtain ⟨r, hr, hok⟩ := ih s' (some (top.Clone.eraseChild c)) hs' (by
            intro y hy
            cases hy
            exact ⟨TrieNode.eraseChild_ok top c htop hkeys hp,
              TrieNode.eraseChild_keysDistinct top c hkeys⟩)
          exact ⟨r, by simp [Remove.rebuild, hp, hr], hok⟩
        | some y =>
          obtain ⟨hy1, hy2⟩ := hcur y rfl
          obtain ⟨r, hr, hok⟩ := ih s' (some (top.Clone.setChild c y)) hs' (by
            intro z hz
            cases hz
            exact ⟨TrieNode.setChild_ok top y c ((TrieNode.noEmptyPlain_iff top).1 htop).2 hy1,
              TrieNode.setChild_keysDistinct top y c hkeys hy2⟩)
          exact ⟨r, by simp [Remove.rebuild, hp, hr], hok⟩

/-- A run of `Trie::Remove` on a trie with a root that satisfies both
invariants has a result, which satisfies both. -/
theorem Trie.Remove_root_ok (root : TrieNode El) (key : List Char)
    (hinv : root.noEmptyPlain = true) (hkeys : root.keysDistinct = true) :
    ∃ t', (⟨some root⟩ : Trie El).Remove key = some t' ∧
      t'.noEmptyPlain = true ∧ t'.keysDistinct = true := by
  have hP : ∀ c child, Children.find root.children_ c = some child →
      child.noEmptyPlain = true ∧ child.keysDistinct = true := by
    intro c child hf
    have hm := Children.mem_of_find _ _ _ hf
    exact ⟨((TrieNode.noEmptyPlain_iff root).1 hinv).2 _ hm,
      ((TrieNode.keysDistinct_iff root).1 hkeys).2 _ hm⟩
  have h0 : Remove.StackAll (fun x => x.noEmptyPlain = true ∧ x.keysDistinct = true)
      [some root] := by
    intro e he
    rw [List.mem_singleton] at he
    exact ⟨root, he, hinv, hkeys⟩
  rcases Remove.push_root root _ hP key [some root] h0 with h | ⟨pre, h, hall⟩
  · exact ⟨⟨some root⟩, by simp [Trie.Remove, h], hinv, hkeys⟩
  · cases hpre : pre ++ [some root] with
    | nil => simp at hpre
    | cons e s' =>
      rw [hpre] at h hall
      have hs' : Remove.StackAll (fun x => x.noEmptyPlain = true ∧ x.keysDistinct = true) s' :=
        fun e he => hall e (List.mem_cons_of_mem _ he)
      obtain ⟨r, hr, hok⟩ := Remove.rebuild_ok key.reverse s' none hs' (by
        intro y hy
        cases hy)
      refine ⟨⟨r⟩, by simp [Trie.Remove, h, hr], ?_⟩
      cases r with
      | none => exact ⟨rfl, rfl⟩
      | some y => exact hok y rfl

/-- The result of `Trie::Put` has maps with unique keys when the trie has. -/
theorem Trie.Put_keysDistinct (T : Ty) (t : Trie El) (key : List Char) (value : El T)
    (hkeys : t.keysDistinct = true) :
    ∃ t', t.Put T key value = some t' ∧ t'.keysDistinct = true := by
  refine ⟨_, Trie.Put_eq T t key value, ?_⟩
  refine Put.node_keysDistinct (TrieNode.withValue T value) rfl key _ ?_
  obtain ⟨r⟩ := t
  cases r with
  | none => rfl
  | some root => exact hkeys

/-- The sample trie is what the two calls of `Put` build. -/
theorem sampleTrie_eq :
    putAll (Trie.emptyTrie : Trie ValueType.El)
      [(['a'], ⟨.uint32, (1 : Nat)⟩), (['a', 'b'], ⟨.uint32, (2 : Nat)⟩)] = some sampleTrie :=
  rfl

/-! ### Lookups -/

variable [DecidableEq Ty]

theorem castValue_same (T : Ty) (v : El T) : castValue T (⟨T, v⟩ : (T' : Ty) × El T') = some v := by
  simp [castValue]

theorem TrieNode.lookup_empty (T : Ty) (key : List Char) :
    (TrieNode.empty : TrieNode El).lookup T key = none := by
  cases key <;> rfl

theorem TrieNode.lookup_nil (T : Ty) (n : TrieNode El) : n.lookup T [] = n.valueAs T := rfl

theorem TrieNode.lookup_cons (T : Ty) (n : TrieNode El) (c : Char) (key : List Char) :
    n.lookup T (c :: key) =
      ((Children.find n.children_ c).getD TrieNode.empty).lookup T key := by
  cases hf : Children.find n.children_ c with
  | none =>
    rw [Option.getD_none, TrieNode.lookup_empty]
    simp [TrieNode.lookup, Get.walk, hf]
  | some child => simp [TrieNode.lookup, Get.walk, hf]

/-- A lookup in a trie is the lookup below its root, where a missing root
reads as an empty node. -/
theorem Trie.Get_eq_lookup (T : Ty) (t : Trie El) (key : List Char) :
    t.Get T key = t.rootOrEmpty.lookup T key := by
  obtain ⟨root⟩ := t
  cases root with
  | none => simp [Trie.Get, Trie.rootOrEmpty, TrieNode.lookup_empty]
  | some root =>
    simp only [Trie.Get, Trie.rootOrEmpty, TrieNode.lookup, Option.getD_some]
    cases Get.walk root key with
    | none => rfl
    | some m =>
      obtain ⟨children, value⟩ := m
      cases value <;> rfl

/-- Below the node `Trie::Put` builds, a key that does not extend the key
of the `Put` reads what it read below the old node. -/
theorem Put.lookup_node_frame (T : Ty) (cur : TrieNode El) (key : List Char) :
    ∀ (n : TrieNode El) (k' : List Char), ¬ key <+: k' →
      (Put.node cur n key).lookup T k' = n.lookup T k' := by
  induction key with
  | nil => intro n k' h; exact absurd (List.nil_prefix) h
  | cons c key ih =>
    intro n k' h
    cases k' with
    | nil => rfl
    | cons c' k'' =>
      rw [TrieNode.lookup_cons, TrieNode.lookup_cons]
      simp only [Put.node, TrieNode.children_setChild]
      by_cases hc : c' = c
      · subst hc
        rw [Children.find_assign_same]
        have h' : ¬ key <+: k'' := fun hp => h (by simpa using hp)
        simpa using ih _ k'' h'
      · rw [Children.find_assign_ne _ _ _ _ hc]

/-- Below the node `Trie::Put` builds, every proper extension of the key
reads nothing: the terminal value node has no children. -/
theorem Put.lookup_node_ext (T T' : Ty) (v : El T) (key : List Char) (n : TrieNode El)
    (c : Char) (k'' : List Char) :
    (Put.node (TrieNode.withValue T v) n key).lookup T' (key ++ c :: k'') = none := by
  simp [TrieNode.lookup, Put.walk_node_append, Get.walk, TrieNode.withValue,
    TrieNode.children_, Children.find]

/-- Below the node `Trie::Put` builds, the key reads the value of the `Put`. -/
theorem Put.lookup_node_self (T : Ty) (v : El T) (key : List Char) (n : TrieNode El) :
    (Put.node (TrieNode.withValue T v) n key).lookup T key = some v := by
  have h := Put.walk_node_append (TrieNode.withValue T v) key n []
  rw [List.append_nil] at h
  unfold TrieNode.lookup
  rw [h]
  simp [Get.walk, TrieNode.valueAs, TrieNode.withValue, TrieNode.value_, castValue_same]

/-- What a lookup reads after a `Put`, case by case. -/
theorem Put.lookup_node_cases (T T' : Ty) (v : El T) (key : List Char) (n : TrieNode El)
    (k' : List Char) :
    (Put.node (TrieNode.withValue T v) n key).lookup T' k' = n.lookup T' k' ∨ key <+: k' := by
  by_cases h : key <+: k'
  · exact Or.inr h
  · exact Or.inl (Put.lookup_node_frame T' _ key n k' h)

/-- A sequence of `Put` calls keeps every key it does not put absent. -/
theorem putAll_absent (T' : Ty) (k' : List Char) (puts : List (List Char × Value El)) :
    ∀ t : Trie El, t.Get T' k' = none → k' ∉ puts.map Prod.fst →
      ∃ t', putAll t puts = some t' ∧ t'.Get T' k' = none := by
  induction puts with
  | nil => intro t ht _; exact ⟨t, rfl, ht⟩
  | cons p puts ih =>
    intro t ht hk
    obtain ⟨k, v⟩ := p
    rw [List.map_cons, List.mem_cons, not_or] at hk
    have hne : k' ≠ k := hk.1
    have hrest : k' ∉ puts.map Prod.fst := hk.2
    have hput := Trie.Put_eq v.1 t k v.2
    have hget : (⟨some (Put.node (TrieNode.withValue v.1 v.2) t.rootOrEmpty k)⟩ : Trie El).Get T' k'
        = none := by
      rw [Trie.Get_eq_lookup]
      show (Put.node (TrieNode.withValue v.1 v.2) t.rootOrEmpty k).lookup T' k' = none
      rcases Put.lookup_node_cases v.1 T' v.2 k t.rootOrEmpty k' with h | h
      · rw [h, ← Trie.Get_eq_lookup]; exact ht
      · obtain ⟨r, rfl⟩ := h
        cases r with
        | nil => exact absurd (List.append_nil k) hne
        | cons c k'' => exact Put.lookup_node_ext v.1 T' v.2 k t.rootOrEmpty c k''
    obtain ⟨t', ht', hg⟩ := ih _ hget hrest
    exact ⟨t', by simp [putAll, hput, ht'], hg⟩

omit [DecidableEq Ty] in
/-- The loop of `Trie::Get` succeeds exactly along the walk of the
specification. -/
theorem Get.walk_eq_some_iff (key : List Char) :
    ∀ (root n : TrieNode El), Get.walk root key = some n ↔ Reaches root key n := by
  induction key with
  | nil =>
    intro root n
    constructor
    · intro h
      simp only [Get.walk, Option.some.injEq] at h
      subst h
      exact Reaches.done root
    · intro h
      cases h
      rfl
  | cons c key ih =>
    intro root n
    constructor
    · intro h
      simp only [Get.walk] at h
      cases hf : Children.find root.children_ c with
      | none => simp [hf] at h
      | some child =>
        simp only [hf] at h
        exact Reaches.step hf ((ih child n).1 h)
    · intro h
      cases h with
      | step hf hr =>
        simp only [Get.walk, hf]
        exact (ih _ n).2 hr

theorem castValue_eq_some_iff (T : Ty) (x : (T' : Ty) × El T') (v : El T) :
    castValue T x = some v ↔ x = ⟨T, v⟩ := by
  obtain ⟨T', v'⟩ := x
  by_cases h : T' = T
  · subst h
    simp [castValue]
  · simp only [castValue, h, dite_false]
    constructor
    · intro hx
      cases hx
    · intro hx
      exact absurd (congrArg Sigma.fst hx) h

theorem castValue_ne (T T' : Ty) (v : El T) (h : T' ≠ T) :
    castValue T' (⟨T, v⟩ : (T'' : Ty) × El T'') = none := by
  simp [castValue, Ne.symm h]

theorem TrieNode.valueAs_eq_some_iff (T : Ty) (n : TrieNode El) (v : El T) :
    n.valueAs T = some v ↔ n.value_ = some ⟨T, v⟩ := by
  unfold TrieNode.valueAs
  cases hv : n.value_ with
  | none => simp
  | some x => simp [castValue_eq_some_iff]

/-- A lookup below a node finds `v` exactly when the walk of the
specification ends on a value node of the requested type holding `v`. -/
theorem TrieNode.lookup_eq_some_iff (T : Ty) (root : TrieNode El) (key : List Char) (v : El T) :
    root.lookup T key = some v ↔ ∃ n, Reaches root key n ∧ n.value_ = some ⟨T, v⟩ := by
  unfold TrieNode.lookup
  cases hw : Get.walk root key with
  | none =>
    constructor
    · intro h
      cases h
    · rintro ⟨n, hr, _⟩
      rw [(Get.walk_eq_some_iff key root n).2 hr] at hw
      cases hw
  | some m =>
    simp only [TrieNode.valueAs_eq_some_iff]
    constructor
    · intro h
      exact ⟨m, (Get.walk_eq_some_iff key root m).1 hw, h⟩
    · rintro ⟨n, hr, hn⟩
      rw [(Get.walk_eq_some_iff key root n).2 hr] at hw
      cases hw
      exact hn

theorem Children.find_erase_same {N : Type} (m : List (Char × N)) (c : Char) :
    Children.find (Children.erase m c) c = none := by
  induction m with
  | nil => rfl
  | cons p rest ih =>
    obtain ⟨c', n'⟩ := p
    by_cases h : c' = c
    · simp [Children.erase, h, ih]
    · simp [Children.erase, Children.find, h, ih]

theorem Children.find_erase_ne {N : Type} (m : List (Char × N)) (c c' : Char) (h : c' ≠ c) :
    Children.find (Children.erase m c) c' = Children.find m c' := by
  induction m with
  | nil => rfl
  | cons p rest ih =>
    obtain ⟨d, n'⟩ := p
    by_cases hd : d = c
    · subst hd
      simp [Children.erase, Children.find, Ne.symm h, ih]
    · by_cases hd' : d = c'
      · subst hd'
        simp [Children.erase, Children.find, hd]
      · simp [Children.erase, Children.find, hd, hd', ih]

/-- A map with at most one entry, one of them for `c`, has no entry for
another character. -/
theorem Children.find_of_size_le_one {N : Type} (m : List (Char × N)) (c c' : Char) (n : N)
    (hsize : Children.size m ≤ 1) (hc : Children.find m c = some n) (h : c' ≠ c) :
    Children.find m c' = none := by
  match m, hsize, hc with
  | [(d, x)], _, hc =>
    by_cases hd : d = c
    · subst hd
      simp [Children.find, Ne.symm h]
    · simp [Children.find, hd] at hc

omit [DecidableEq Ty] in
/-- The run of `Trie::Remove` on a trie with a root and a key of one
character. -/
theorem Trie.Remove_single (root : TrieNode El) (c : Char) :
    (⟨some root⟩ : Trie El).Remove [c] =
      match Children.find root.children_ c with
      | none => some ⟨some root⟩
      | some _ =>
        if !root.is_value_node_ && Children.size root.children_ ≤ 1 then some ⟨none⟩
        else some ⟨some (root.Clone.eraseChild c)⟩ := by
  cases hf : Children.find root.children_ c with
  | none => simp [Trie.Remove, Remove.push, hf]
  | some child =>
    by_cases hp : (!root.is_value_node_ && Children.size root.children_ ≤ 1) = true
    · simp [Trie.Remove, Remove.push, Remove.rebuild, hf, hp]
    · simp [Trie.Remove, Remove.push, Remove.rebuild, hf, hp]

theorem Trie.Get_no_root (T : Ty) (key : List Char) :
    (⟨none⟩ : Trie El).Get T key = none := rfl

theorem Trie.Get_root (T : Ty) (root : TrieNode El) (key : List Char) :
    (⟨some root⟩ : Trie El).Get T key = root.lookup T key :=
  Trie.Get_eq_lookup T ⟨some root⟩ key

end Lemmas

/-! ## Lemmas on the memory model -/

section MemoryLemmas

variable {Ty : Type} {El : Ty → Type}

theorem Mem.read_lt (h : Mem.Heap El) (a : Nat) (n : Mem.Node El)
    (hr : Mem.read h a = some n) : a < h.length := by
  unfold Mem.read at hr
  exact (List.getElem?_eq_some.1 hr).1

theorem Mem.read_of_lt (h : Mem.Heap El) (a : Nat) (ha : a < h.length) :
    ∃ n, Mem.read h a = some n :=
  ⟨h[a], List.getElem?_eq_getElem ha⟩

theorem Mem.read_append (h l : Mem.Heap El) (a : Nat) (n : Mem.Node El)
    (hr : Mem.read h a = some n) : Mem.read (h ++ l) a = some n := by
  have ha := Mem.read_lt h a n hr
  unfold Mem.read at hr ⊢
  rw [List.getElem?_append_left ha]
  exact hr

/-- A memory is extended by every memory it is a prefix of. -/
theorem Mem.Extends.of_append (h l : Mem.Heap El) : Mem.Extends h (h ++ l) :=
  fun a n hr => Mem.read_append h l a n hr

/-- The write through the address of a fresh clone changes that clone only. -/
theorem Mem.writeChildren_alloc (h : Mem.Heap El) (n : Mem.Node El)
    (f : List (Char × Nat) → List (Char × Nat)) :
    Mem.writeChildren (Mem.alloc h n).1 (Mem.alloc h n).2 f
      = some (h ++ [⟨f n.children_, n.value_⟩]) := by
  simp [Mem.writeChildren, Mem.alloc, Mem.read]

/-- The first loop of `Put` only appends to the memory. -/
theorem Mem.Put.push_append (key : List Char) :
    ∀ (h : Mem.Heap El) (s : List Nat) (h' : Mem.Heap El) (s' : List Nat),
      Mem.Put.push key h s = some (h', s') → h <+: h' := by
  induction key with
  | nil =>
    intro h s h' s' hp
    simp only [Mem.Put.push, Option.some.injEq, Prod.mk.injEq] at hp
    rw [hp.1]
  | cons c key ih =>
    intro h s h' s' hp
    cases s with
    | nil => simp [Mem.Put.push] at hp
    | cons q s0 =>
      simp only [Mem.Put.push] at hp
      cases hq : Mem.read h q with
      | none => simp [hq] at hp
      | some node =>
        simp only [hq] at hp
        cases hf : Children.find node.children_ c with
        | some child =>
          simp only [hf] at hp
          exact ih _ _ _ _ hp
        | none =>
          simp only [hf, Mem.alloc] at hp
          exact (List.prefix_append h _).trans (ih _ _ _ _ hp)

/-- The second loop of `Put` only appends to the memory. -/
theorem Mem.Put.put_rebuild_append (rkey : List Char) :
    ∀ (h : Mem.Heap El) (s : List Nat) (cur : Nat) (h' : Mem.Heap El) (r : Nat),
      Mem.Put.rebuild rkey h s cur = some (h', r) → h <+: h' := by
  induction rkey with
  | nil =>
    intro h s cur h' r hp
    simp only [Mem.Put.rebuild, Option.some.injEq, Prod.mk.injEq] at hp
    rw [hp.1]
  | cons c rkey ih =>
    intro h s cur h' r hp
    cases s with
    | nil => simp [Mem.Put.rebuild] at hp
    | cons top s0 =>
      simp only [Mem.Put.rebuild] at hp
      cases hq : Mem.read h top with
      | none => simp [hq] at hp
      | some node =>
        simp only [hq] at hp
        rw [Mem.writeChildren_alloc] at hp
        simp only [Mem.alloc] at hp
        exact (List.prefix_append h _).trans (ih _ _ _ _ _ hp)

/-- The part of `Put` after the choice of the first stack entry only
appends to the memory. -/
theorem Mem.Put_append_aux (T : Ty) (h0 : Mem.Heap El) (s0 : List Nat) (key : List Char)
    (value : El T) (h' : Mem.Heap El) (root' : Option Nat)
    (hp : (match Mem.Put.push key h0 s0 with
      | none => none
      | some (h1, s) =>
        match s with
        | [] => none
        | _ :: s' =>
          match Mem.Put.rebuild key.reverse (Mem.alloc h1 ⟨[], some ⟨T, value⟩⟩).1 s'
              (Mem.alloc h1 ⟨[], some ⟨T, value⟩⟩).2 with
          | none => none
          | some (h3, cur_node') => some (h3, some cur_node')) = some (h', root')) :
    h0 <+: h' := by
  cases h1 : Mem.Put.push key h0 s0 with
  | none => simp [h1] at hp
  | some res =>
    obtain ⟨hh, s⟩ := res
    have hpre1 := Mem.Put.push_append key _ _ _ _ h1
    simp only [h1] at hp
    cases s with
    | nil => simp at hp
    | cons top s' =>
      simp only at hp
      cases h2 : Mem.Put.rebuild key.reverse (Mem.alloc hh ⟨[], some ⟨T, value⟩⟩).1 s'
          (Mem.alloc hh ⟨[], some ⟨T, value⟩⟩).2 with
      | none => simp [h2] at hp
      | some res2 =>
        obtain ⟨h3, r⟩ := res2
        have hpre2 := Mem.Put.put_rebuild_append _ _ _ _ _ _ h2
        simp only [h2, Option.some.injEq, Prod.mk.injEq] at hp
        rw [← hp.1]
        exact hpre1.trans ((List.prefix_append hh _).trans hpre2)

/-- A run of `Put` only appends to the memory. -/
theorem Mem.Put_append (T : Ty) (h : Mem.Heap El) (root_ : Option Nat) (key : List Char)
    (value : El T) (h' : Mem.Heap El) (root' : Option Nat)
    (hp : Mem.Put T h root_ key value = some (h', root')) : h <+: h' := by
  cases root_ with
  | none =>
    exact (List.prefix_append h _).trans
      (Mem.Put_append_aux T (Mem.alloc h ⟨[], none⟩).1 [(Mem.alloc h ⟨[], none⟩).2]
        key value h' root' hp)
  | some root => exact Mem.Put_append_aux T h [root] key value h' root' hp

/-- The second loop of `Remove` only appends to the memory. -/
theorem Mem.Remove.remove_rebuild_append (rkey : List Char) :
    ∀ (h : Mem.Heap El) (s : List (Option Nat)) (cur : Option Nat) (h' : Mem.Heap El)
      (r : Option Nat), Mem.Remove.rebuild rkey h s cur = some (h', r) → h <+: h' := by
  induction rkey with
  | nil =>
    intro h s cur h' r hp
    simp only [Mem.Remove.rebuild, Option.some.injEq, Prod.mk.injEq] at hp
    rw [hp.1]
  | cons c rkey ih =>
    intro h s cur h' r hp
    cases s with
    | nil =>
      simp only [Mem.Remove.rebuild, Option.some.injEq, Prod.mk.injEq] at hp
      rw [hp.1]
    | cons e s0 =>
      cases e with
      | none => simp [Mem.Remove.rebuild] at hp
      | some top =>
        simp only [Mem.Remove.rebuild] at hp
        cases hq : Mem.read h top with
        | none => simp [hq] at hp
        | some node =>
          simp only [hq] at hp
          split at hp
          · exact ih _ _ _ _ _ hp
          · rw [Mem.writeChildren_alloc] at hp
            simp only [Mem.alloc] at hp
            exact (List.prefix_append h _).trans (ih _ _ _ _ _ hp)

/-- A run of `Remove` only appends to the memory. -/
theorem Mem.Remove_append (h : Mem.Heap El) (root_ : Option Nat) (key : List Char)
    (h' : Mem.Heap El) (root' : Option Nat)
    (hp : Mem.Remove h root_ key = some (h', root')) : h <+: h' := by
  unfold Mem.Remove at hp
  split at hp
  · cases hp
  · simp only [Option.some.injEq, Prod.mk.injEq] at hp
    rw [hp.1]
  · split at hp
    · cases hp
    · exact Mem.Remove.remove_rebuild_append _ _ _ _ _ _ hp

/-- A memory is extended by every memory it is a prefix of. -/
theorem Mem.Extends.of_prefix (h h' : Mem.Heap El) (hpre : h <+: h') : Mem.Extends h h' := by
  obtain ⟨l, rfl⟩ := hpre
  exact Mem.Extends.of_append h l

/-- The loop of `Get` reads the same in an extended memory. -/
theorem Mem.Get.walk_extends (h h' : Mem.Heap El) (hext : Mem.Extends h h') (key : List Char) :
    ∀ (cur : Nat) (r : Option Nat), Mem.Get.walk h cur key = some r →
      Mem.Get.walk h' cur key = some r := by
  induction key with
  | nil => intro cur r hw; exact hw
  | cons c key ih =>
    intro cur r hw
    simp only [Mem.Get.walk] at hw ⊢
    cases hq : Mem.read h cur with
    | none => simp [hq] at hw
    | some node =>
      rw [hext cur node hq]
      simp only [hq] at hw
      cases hf : Children.find node.children_ c with
      | none =>
        simp only [hf] at hw ⊢
        exact hw
      | some child =>
        simp only [hf] at hw ⊢
        exact ih child r hw

/-- In a memory without dangling addresses the loop of `Get` is defined,
and lands on an address of the memory. -/
theorem Mem.Get.walk_defined (h : Mem.Heap El) (hclosed : Mem.Closed h) (key : List Char) :
    ∀ cur : Nat, cur < h.length →
      ∃ r, Mem.Get.walk h cur key = some r ∧ ∀ a, r = some a → a < h.length := by
  induction key with
  | nil =>
    intro cur hcur
    exact ⟨some cur, rfl, fun a ha => by cases ha; exact hcur⟩
  | cons c key ih =>
    intro cur hcur
    obtain ⟨node, hq⟩ := Mem.read_of_lt h cur hcur
    cases hf : Children.find node.children_ c with
    | none =>
      exact ⟨none, by simp [Mem.Get.walk, hq, hf], fun a ha => by cases ha⟩
    | some child =>
      have hchild : child < h.length :=
        hclosed cur node hq (c, child) (Children.mem_of_find _ _ _ hf)
      obtain ⟨r, hr, hok⟩ := ih child hchild
      exact ⟨r, by simp [Mem.Get.walk, hq, hf, hr], hok⟩

/-- A fresh node whose children are addresses of the memory keeps the
memory without dangling addresses. -/
theorem Mem.Closed.alloc (h : Mem.Heap El) (n : Mem.Node El) (hclosed : Mem.Closed h)
    (hn : ∀ p ∈ n.children_, p.2 < h.length) : Mem.Closed (h ++ [n]) := by
  intro a m hr p hp
  rw [List.length_append, List.length_singleton]
  by_cases ha : a < h.length
  · obtain ⟨m', hm'⟩ := Mem.read_of_lt h a ha
    have := Mem.read_append h [n] a m' hm'
    rw [this, Option.some.injEq] at hr
    rw [← hr] at hp
    exact Nat.lt_succ_of_lt (hclosed a m' hm' p hp)
  · have hlt := Mem.read_lt _ a m hr
    rw [List.length_append, List.length_singleton] at hlt
    have hEq : a = h.length := by omega
    subst hEq
    unfold Mem.read at hr
    rw [List.getElem?_concat_length] at hr
    cases hr
    exact Nat.lt_succ_of_lt (hn p hp)

/-- The first loop of `Put` has a result on a memory without dangling
addresses. -/
theorem Mem.Put.put_push_total (key : List Char) :
    ∀ (h : Mem.Heap El) (s : List Nat), Mem.Closed h → (∀ a ∈ s, a < h.length) → s ≠ [] →
      ∃ h' s', Mem.Put.push key h s = some (h', s') ∧ Mem.Closed h' ∧
        (∀ a ∈ s', a < h'.length) ∧ s'.length = s.length + key.length := by
  induction key with
  | nil =>
    intro h s hclosed hs _
    exact ⟨h, s, rfl, hclosed, hs, rfl⟩
  | cons c key ih =>
    intro h s hclosed hs hne
    cases s with
    | nil => exact absurd rfl hne
    | cons q s0 =>
      obtain ⟨node, hq⟩ := Mem.read_of_lt h q (hs q (List.mem_cons_self _ _))
      cases hf : Children.find node.children_ c with
      | some child =>
        have hchild : child < h.length :=
          hclosed q node hq (c, child) (Children.mem_of_find _ _ _ hf)
        obtain ⟨h', s', hp, hc', hs', hlen⟩ := ih h (child :: q :: s0) hclosed
          (by
            intro a ha
            rcases List.mem_cons.1 ha with ha | ha
            · exact ha ▸ hchild
            · exact hs a ha)
          (List.cons_ne_nil _ _)
        refine ⟨h', s', by simp [Mem.Put.push, hq, hf, hp], hc', hs', ?_⟩
        simp only [List.length_cons] at hlen ⊢
        omega
      | none =>
        obtain ⟨h', s', hp, hc', hs', hlen⟩ := ih (h ++ [⟨[], none⟩]) (h.length :: q :: s0)
          (Mem.Closed.alloc h _ hclosed (fun p hp => by cases hp))
          (by
            intro a ha
            rw [List.length_append, List.length_singleton]
            rcases List.mem_cons.1 ha with ha | ha
            · omega
            · exact Nat.lt_succ_of_lt (hs a ha))
          (List.cons_ne_nil _ _)
        refine ⟨h', s', by simp [Mem.Put.push, hq, hf, Mem.alloc, hp], hc', hs', ?_⟩
        simp only [List.length_cons] at hlen ⊢
        omega

/-- The clone of a node of the memory, with its children rewritten to
addresses of the memory, keeps the memory without dangling addresses. -/
theorem Mem.Closed.clone (h : Mem.Heap El) (top : Nat) (node : Mem.Node El)
    (f : List (Char × Nat) → List (Char × Nat)) (hclosed : Mem.Closed h)
    (hq : Mem.read h top = some node)
    (hf : ∀ p ∈ f node.children_, p ∈ node.children_ ∨ p.2 < h.length) :
    Mem.Closed (h ++ [⟨f node.children_, node.value_⟩]) := by
  apply Mem.Closed.alloc h _ hclosed
  intro p hp
  rcases hf p hp with h1 | h1
  · exact hclosed top node hq p h1
  · exact h1

/-- The second loop of `Put` has a result on a memory without dangling
addresses, when the stack holds an entry for each character. -/
theorem Mem.Put.put_rebuild_total (rkey : List Char) :
    ∀ (h : Mem.Heap El) (s : List Nat) (cur : Nat), Mem.Closed h →
      (∀ a ∈ s, a < h.length) → cur < h.length → rkey.length ≤ s.length →
      ∃ h' r, Mem.Put.rebuild rkey h s cur = some (h', r) ∧ Mem.Closed h' ∧ r < h'.length := by
  induction rkey with
  | nil =>
    intro h s cur hclosed _ hcur _
    exact ⟨h, cur, rfl, hclosed, hcur⟩
  | cons c rkey ih =>
    intro h s cur hclosed hs hcur hlen
    cases s with
    | nil => simp at hlen
    | cons top s0 =>
      obtain ⟨node, hq⟩ := Mem.read_of_lt h top (hs top (List.mem_cons_self _ _))
      obtain ⟨h', r, hp, hc', hr⟩ := ih
        (h ++ [⟨Children.assign node.children_ c cur, node.value_⟩]) s0 h.length
        (Mem.Closed.clone h top node (fun m => Children.assign m c cur) hclosed hq (by
          intro p hp
          rcases Children.mem_assign _ _ _ _ hp with h1 | h1
          · exact Or.inl h1
          · subst h1
            exact Or.inr hcur))
        (by
          intro a ha
          rw [List.length_append, List.length_singleton]
          exact Nat.lt_succ_of_lt (hs a (List.mem_cons_of_mem _ ha)))
        (by rw [List.length_append, List.length_singleton]; omega)
        (by simp only [List.length_cons] at hlen; omega)
      refine ⟨h', r, ?_, hc', hr⟩
      simp only [Mem.Put.rebuild, hq]
      rw [Mem.writeChildren_alloc]
      exact hp

/-- The part of `Put` after the choice of the first stack entry has a
result on a memory without dangling addresses. -/
theorem Mem.Put_total_aux (T : Ty) (h0 : Mem.Heap El) (a0 : Nat) (key : List Char)
    (value : El T) (hclosed : Mem.Closed h0) (ha0 : a0 < h0.length) :
    ∃ h' r, (match Mem.Put.push key h0 [a0] with
      | none => none
      | some (h1, s) =>
        match s with
        | [] => none
        | _ :: s' =>
          match Mem.Put.rebuild key.reverse (Mem.alloc h1 ⟨[], some ⟨T, value⟩⟩).1 s'
              (Mem.alloc h1 ⟨[], some ⟨T, value⟩⟩).2 with
          | none => none
          | some (h3, cur_node') => some (h3, some cur_node')) = some (h', some r) := by
  obtain ⟨h1, s, hp, hc1, hs1, hlen⟩ := Mem.Put.put_push_total key h0 [a0] hclosed
    (by
      intro a ha
      rw [List.mem_singleton] at ha
      exact ha ▸ ha0)
    (List.cons_ne_nil _ _)
  cases s with
  | nil =>
    simp only [List.length_nil, List.length_cons] at hlen
    omega
  | cons top s' =>
    obtain ⟨h3, r, hr, _, _⟩ := Mem.Put.put_rebuild_total key.reverse
      (h1 ++ [⟨[], some ⟨T, value⟩⟩]) s' h1.length
      (Mem.Closed.alloc h1 _ hc1 (fun p hp => by cases hp))
      (by
        intro a ha
        rw [List.length_append, List.length_singleton]
        exact Nat.lt_succ_of_lt (hs1 a (List.mem_cons_of_mem _ ha)))
      (by rw [List.length_append, List.length_singleton]; omega)
      (by
        simp only [List.length_cons, List.length_nil, List.length_reverse] at hlen ⊢
        omega)
    refine ⟨h3, r, ?_⟩
    simp only [hp, Mem.alloc, hr]

/-- A run of `Put` has a result on a memory without dangling addresses. -/
theorem Mem.Put_total (T : Ty) (h : Mem.Heap El) (root_ : Option Nat) (key : List Char)
    (value : El T) (hclosed : Mem.Closed h) (hroot : ∀ r, root_ = some r → r < h.length) :
    ∃ h' r, Mem.Put T h root_ key value = some (h', some r) := by
  cases root_ with
  | none =>
    exact Mem.Put_total_aux T (h ++ [⟨[], none⟩]) h.length key value
      (Mem.Closed.alloc h _ hclosed (fun p hp => by cases hp))
      (by rw [List.length_append, List.length_singleton]; omega)
  | some root => exact Mem.Put_total_aux T h root key value hclosed (hroot root rfl)

/-- The first loop of `Remove` on a trie with a root, in a memory without
dangling addresses: it returns early, or leaves a stack that grew by
addresses of the memory. -/
theorem Mem.Remove.remove_push_total (h : Mem.Heap El) (q : Nat) (hclosed : Mem.Closed h)
    (hq : q < h.length) (key : List Char) :
    ∀ s : List (Option Nat), (∀ e ∈ s, ∃ a, e = some a ∧ a < h.length) →
      Mem.Remove.push h (some q) key s = some none ∨
        ∃ pre, Mem.Remove.push h (some q) key s = some (some (pre ++ s)) ∧
          ∀ e ∈ pre ++ s, ∃ a, e = some a ∧ a < h.length := by
  obtain ⟨node, hnode⟩ := Mem.read_of_lt h q hq
  induction key with
  | nil =>
    intro s hs
    exact Or.inr ⟨[], rfl, hs⟩
  | cons c key ih =>
    intro s hs
    cases hf : Children.find node.children_ c with
    | none =>
      left
      simp [Mem.Remove.push, hnode, hf]
    | some child =>
      have hchild : child < h.length :=
        hclosed q node hnode (c, child) (Children.mem_of_find _ _ _ hf)
      have hs' : ∀ e ∈ some child :: s, ∃ a, e = some a ∧ a < h.length := by
        intro e he
        rcases List.mem_cons.1 he with h1 | h1
        · exact ⟨child, h1, hchild⟩
        · exact hs e h1
      rcases ih (some child :: s) hs' with h1 | ⟨pre, h1, hall⟩
      · left
        simp [Mem.Remove.push, hnode, hf, h1]
      · right
        refine ⟨pre ++ [some child], ?_, ?_⟩
        · simp [Mem.Remove.push, hnode, hf, h1]
        · simpa using hall

/-- The second loop of `Remove` has a result on a memory without dangling
addresses. -/
theorem Mem.Remove.remove_rebuild_total (rkey : List Char) :
    ∀ (h : Mem.Heap El) (s : List (Option Nat)) (cur : Option Nat), Mem.Closed h →
      (∀ e ∈ s, ∃ a, e = some a ∧ a < h.length) → (∀ a, cur = some a → a < h.length) →
      ∃ h' r, Mem.Remove.rebuild rkey h s cur = some (h', r) ∧ Mem.Closed h' := by
  induction rkey with
  | nil =>
    intro h s cur hclosed _ _
    exact ⟨h, cur, rfl, hclosed⟩
  | cons c rkey ih =>
    intro h s cur hclosed hs hcur
    cases s with
    | nil => exact ⟨h, cur, rfl, hclosed⟩
    | cons e s0 =>
      obtain ⟨top, rfl, htop⟩ := hs e (List.mem_cons_self _ _)
      have hs0 : ∀ e ∈ s0, ∃ a, e = some a ∧ a < h.length :=
        fun e he => hs e (List.mem_cons_of_mem _ he)
      obtain ⟨node, hq⟩ := Mem.read_of_lt h top htop
      by_cases hp : (!node.value_.isSome && decide (Children.size node.children_ ≤ 1)) = true
      · obtain ⟨h', r, hr, hc'⟩ := ih h s0 cur hclosed hs0 hcur
        exact ⟨h', r, by simp only [Mem.Remove.rebuild, hq, hp, if_true, hr], hc'⟩
      · have hgrow : ∀ (n : Mem.Node El) (e : Option Nat), e ∈ s0 →
            ∃ a, e = some a ∧ a < (h ++ [n]).length := by
          intro n e he
          obtain ⟨a, ha, hlt⟩ := hs0 e he
          exact ⟨a, ha, by rw [List.length_append, List.length_singleton]; omega⟩
        have hnew : ∀ (n : Mem.Node El) (a : Nat), some h.length = some a →
            a < (h ++ [n]).length := by
          intro n a ha
          cases ha
          rw [List.length_append, List.length_singleton]
          omega
        cases cur with
        | none =>
          obtain ⟨h', r, hr, hc'⟩ := ih
            (h ++ [⟨Children.erase node.children_ c, node.value_⟩]) s0 (some h.length)
            (Mem.Closed.clone h top node (fun m => Children.erase m c) hclosed hq
              (fun p hp => Or.inl (Children.mem_erase _ _ _ hp)))
            (hgrow _) (hnew _)
          refine ⟨h', r, ?_, hc'⟩
          simp only [Mem.Remove.rebuild, hq, hp]
          rw [Mem.writeChildren_alloc]
          exact hr
        | some y =>
          obtain ⟨h', r, hr, hc'⟩ := ih
            (h ++ [⟨Children.assign node.children_ c y, node.value_⟩]) s0 (some h.length)
            (Mem.Closed.clone h top node (fun m => Children.assign m c y) hclosed hq (by
              intro p hp
              rcases Children.mem_assign _ _ _ _ hp with h1 | h1
              · exact Or.inl h1
              · subst h1
                exact Or.inr (hcur y rfl)))
            (hgrow _) (hnew _)
          refine ⟨h', r, ?_, hc'⟩
          simp only [Mem.Remove.rebuild, hq, hp]
          rw [Mem.writeChildren_alloc]
          exact hr

/-- A run of `Remove` has a result on a memory without dangling addresses
when the trie has a root or the key is empty. -/
theorem Mem.Remove_total (h : Mem.Heap El) (root_ : Option Nat) (key : List Char)
    (hclosed : Mem.Closed h) (hroot : ∀ r, root_ = some r → r < h.length)
    (hdef : root_.isSome = true ∨ key = []) :
    ∃ h' root', Mem.Remove h root_ key = some (h', root') := by
  cases root_ with
  | none =>
    rcases hdef with h1 | h1
    · cases h1
    · subst h1
      exact ⟨h, none, rfl⟩
  | some q =>
    have hq := hroot q rfl
    rcases Mem.Remove.remove_push_total h q hclosed hq key [some q]
      (by
        intro e he
        rw [List.mem_singleton] at he
        exact ⟨q, he, hq⟩) with h1 | ⟨pre, h1, hall⟩
    · exact ⟨h, some q, by simp [Mem.Remove, h1]⟩
    · cases hpre : pre ++ [some q] with
      | nil => simp at hpre
      | cons e s' =>
        rw [hpre] at h1 hall
        obtain ⟨h', r, hr, _⟩ := Mem.Remove.remove_rebuild_total key.reverse h s' none hclosed
          (fun e he => hall e (List.mem_cons_of_mem _ he)) (by
            intro a ha
            cases ha)
        exact ⟨h', r, by simp [Mem.Remove, h1, hr]⟩

/-- In a memory without dangling addresses, `Get` on a trie of the memory
returns the same in every extension of the memory. -/
theorem Mem.Get_frame [DecidableEq Ty] (T : Ty) (h h' : Mem.Heap El) (root_ : Option Nat)
    (key : List Char) (hclosed : Mem.Closed h) (hroot : ∀ r, root_ = some r → r < h.length)
    (hext : Mem.Extends h h') :
    Mem.Get T h' root_ key = Mem.Get T h root_ key := by
  cases root_ with
  | none => rfl
  | some root =>
    obtain ⟨w, hw, hok⟩ := Mem.Get.walk_defined h hclosed key root (hroot root rfl)
    have hw' := Mem.Get.walk_extends h h' hext key root w hw
    cases w with
    | none => simp [Mem.Get, hw, hw']
    | some a =>
      obtain ⟨node, hnode⟩ := Mem.read_of_lt h a (hok a rfl)
      simp [Mem.Get, hw, hw', hnode, hext a node hnode]

/-- A memory in which every node holds addresses of the memory only has
no dangling address. -/
theorem Mem.Closed.of_forall_mem (h : Mem.Heap El)
    (hall : ∀ n ∈ h, ∀ p ∈ n.children_, p.2 < h.length) : Mem.Closed h := by
  intro a n hr p hp
  unfold Mem.read at hr
  exact hall n (List.getElem?_mem hr) p hp

/-- The sample memory is what `Put` builds. -/
theorem Mem.sampleHeap_eq :
    Mem.Put ValueType.uint32 ([] : Mem.Heap ValueType.El) none ['a'] (1 : Nat)
      = some (Mem.sampleHeap, some 3) := rfl

end MemoryLemmas

/-! ## The claims -/

section Claims

variable {Ty : Type} [DecidableEq Ty] {El : Ty → Type}

/-- C1: for every trie (the empty trie without root included), every key
(the empty key included) and every value `v` of type `T`, `Put` has a
result, and `Get<T>` of the key on that result returns `v`. -/
theorem C1_get_put_same (T : Ty) (t : Trie El) (k : List Char) (v : El T) :
    ∃ t', t.Put T k v = some t' ∧ t'.Get T k = some v := by
  refine ⟨_, Trie.Put_eq T t k v, ?_⟩
  rw [Trie.Get_eq_lookup]
  exact Put.lookup_node_self T v k t.rootOrEmpty

/-- C4: for every trie, key `k`, value and key `k'` such that `k` is not a
prefix of `k'` (they diverge at some character, or `k'` is a proper prefix
of `k`), `Put` at `k` has a result on which `Get` of `k'`, at every type,
returns what it returned on the original trie. -/
theorem C4_get_put_frame (T T' : Ty) (t : Trie El) (k k' : List Char) (v : El T)
    (h : ¬ k <+: k') :
    ∃ t', t.Put T k v = some t' ∧ t'.Get T' k' = t.Get T' k' := by
  refine ⟨_, Trie.Put_eq T t k v, ?_⟩
  rw [Trie.Get_eq_lookup, Trie.Get_eq_lookup]
  exact Put.lookup_node_frame T' _ k t.rootOrEmpty k' h

/-- C5: every finite sequence of `Put` calls applied in order from the
empty trie has a result, on which `Get`, at every type, returns absent for
every key that is not the key of a `Put` of the sequence. -/
theorem C5_get_never_put (puts : List (List Char × Value El)) (T' : Ty) (k' : List Char)
    (h : k' ∉ puts.map Prod.fst) :
    ∃ t', putAll (Trie.emptyTrie : Trie El) puts = some t' ∧ t'.Get T' k' = none :=
  putAll_absent T' k' puts Trie.emptyTrie rfl h

/-- C12: for every trie, key `k` and value `v` stored with the value type
`T`, `Get` requested with a different value type `T'` on the result of
`Put` returns absent for `k`: the cast compares the types. -/
theorem C12_get_type_mismatch (T T' : Ty) (t : Trie El) (k : List Char) (v : El T)
    (h : T' ≠ T) :
    ∃ t', t.Put T k v = some t' ∧ t'.Get T' k = none := by
  refine ⟨_, Trie.Put_eq T t k v, ?_⟩
  rw [Trie.Get_eq_lookup]
  have hw := Put.walk_node_append (TrieNode.withValue T v) k t.rootOrEmpty []
  rw [List.append_nil] at hw
  show (Put.node (TrieNode.withValue T v) t.rootOrEmpty k).lookup T' k = none
  unfold TrieNode.lookup
  rw [hw]
  simp [Get.walk, TrieNode.valueAs, TrieNode.withValue, TrieNode.value_, castValue_ne T T' v h]

/-- C13: `Get<T>` returns `v` exactly when the trie has a root, each
character of the key in turn has a matching child starting from the root,
and the node reached after the whole key is a value node of type `T`
holding `v`; it returns absent exactly when there is no such `v`. -/
theorem C13_get_characterisation (T : Ty) (t : Trie El) (k : List Char) :
    (∀ v : El T, t.Get T k = some v ↔
        ∃ root n, t.root_ = some root ∧ Reaches root k n ∧ n.value_ = some ⟨T, v⟩) ∧
      (t.Get T k = none ↔
        ¬ ∃ (v : El T) (root n : TrieNode El),
          t.root_ = some root ∧ Reaches root k n ∧ n.value_ = some ⟨T, v⟩) := by
  have key : ∀ v : El T, t.Get T k = some v ↔
      ∃ root n, t.root_ = some root ∧ Reaches root k n ∧ n.value_ = some ⟨T, v⟩ := by
    intro v
    obtain ⟨r⟩ := t
    cases r with
    | none =>
      rw [Trie.Get_no_root]
      constructor
      · intro h
        cases h
      · rintro ⟨root, n, hr, _⟩
        cases hr
    | some root =>
      rw [Trie.Get_root, TrieNode.lookup_eq_some_iff]
      constructor
      · rintro ⟨n, hr, hn⟩
        exact ⟨root, n, rfl, hr, hn⟩
      · rintro ⟨root', n, hroot, hr, hn⟩
        cases hroot
        exact ⟨n, hr, hn⟩
  refine ⟨key, ?_⟩
  constructor
  · rintro hnone ⟨v, hv⟩
    rw [(key v).2 hv] at hnone
    cases hnone
  · intro hno
    cases hg : t.Get T k with
    | none => rfl
    | some v => exact absurd ⟨v, (key v).1 hg⟩ hno

/-- C17: for every trie, key `k`, value and key `k'` of which `k` is a
proper prefix, `Put` at `k` has a result on which `Get` of `k'`, at every
type, is absent: the terminal value node is built without children. -/
theorem C17_put_hides_extensions (T T' : Ty) (t : Trie El) (k k' : List Char) (v : El T)
    (hpre : k <+: k') (hne : k ≠ k') :
    ∃ t', t.Put T k v = some t' ∧ t'.Get T' k' = none := by
  refine ⟨_, Trie.Put_eq T t k v, ?_⟩
  rw [Trie.Get_eq_lookup]
  obtain ⟨r, rfl⟩ := hpre
  cases r with
  | nil => exact absurd (List.append_nil k).symm hne
  | cons c k'' => exact Put.lookup_node_ext T T' v k t.rootOrEmpty c k''

/-- C18: for every trie with a root and every key `[c]` of one character,
`Remove` has a result on which `Get`, at every type, is absent for every
key that starts with `c` and returns what it returned on the original trie
for every key that does not start with `c` (the empty key included). -/
theorem C18_remove_single_char (root : TrieNode El) (c : Char) :
    ∃ t', (⟨some root⟩ : Trie El).Remove [c] = some t' ∧
      (∀ (T' : Ty) (rest : List Char), t'.Get T' (c :: rest) = none) ∧
      (∀ (T' : Ty) (k' : List Char), ¬ [c] <+: k' →
        t'.Get T' k' = (⟨some root⟩ : Trie El).Get T' k') := by
  rw [Trie.Remove_single]
  cases hf : Children.find root.children_ c with
  | none =>
    refine ⟨_, rfl, ?_, fun _ _ _ => rfl⟩
    intro T' rest
    rw [Trie.Get_root, TrieNode.lookup_cons, hf]
    exact TrieNode.lookup_empty T' rest
  | some child =>
    by_cases hp : (!root.is_value_node_ && Children.size root.children_ ≤ 1) = true
    · simp only [hp, if_true]
      refine ⟨_, rfl, fun _ _ => rfl, ?_⟩
      intro T' k' hk'
      rw [Trie.Get_no_root, Trie.Get_root]
      simp only [Bool.and_eq_true, Bool.not_eq_true', decide_eq_true_eq] at hp
      cases k' with
      | nil =>
        have hv : root.value_ = none := by
          have := hp.1
          simpa [TrieNode.is_value_node_] using this
        simp [TrieNode.lookup, Get.walk, TrieNode.valueAs, hv]
      | cons c' rest =>
        have hc : c' ≠ c := fun h => hk' (by simp [h])
        rw [TrieNode.lookup_cons,
          Children.find_of_size_le_one root.children_ c c' child hp.2 hf hc]
        exact (TrieNode.lookup_empty T' rest).symm
    · simp only [hp]
      refine ⟨_, rfl, ?_, ?_⟩
      · intro T' rest
        rw [Trie.Get_root, TrieNode.lookup_cons]
        show ((Children.find (Children.erase root.children_ c) c).getD TrieNode.empty).lookup
          T' rest = none
        rw [Children.find_erase_same]
        exact TrieNode.lookup_empty T' rest
      · intro T' k' hk'
        rw [Trie.Get_root, Trie.Get_root]
        cases k' with
        | nil => rfl
        | cons c' rest =>
          have hc : c' ≠ c := fun h => hk' (by simp [h])
          rw [TrieNode.lookup_cons, TrieNode.lookup_cons]
          show ((Children.find (Children.erase root.children_ c) c').getD TrieNode.empty).lookup
            T' rest = _
          rw [Children.find_erase_ne _ _ _ hc]

end Claims

section StructuralClaims

variable {Ty : Type} {El : Ty → Type}

/-- C16: on a trie whose maps have unique keys and in which every node
reachable from the root is a value node or has at least one child, `Put`
has a result with the same property, and so has every result of `Remove`,
for every key and value; `Remove` has a result whenever the trie has a
root or the key is empty. -/
theorem C16_no_empty_plain_preserved (T : Ty) (t : Trie El) (k : List Char) (v : El T)
    (hkeys : t.keysDistinct = true) (hinv : t.noEmptyPlain = true) :
    (∃ t', t.Put T k v = some t' ∧ t'.noEmptyPlain = true) ∧
      (∀ t', t.Remove k = some t' → t'.noEmptyPlain = true) ∧
      (t.root_.isSome = true ∨ k = [] → ∃ t', t.Remove k = some t') := by
  obtain ⟨r⟩ := t
  refine ⟨⟨_, Trie.Put_eq T _ k v, ?_⟩, ?_, ?_⟩
  · refine Put.node_noEmptyPlain (TrieNode.withValue T v) rfl k _ ?_
    cases r with
    | none =>
      intro p hp
      cases hp
    | some root => exact ((TrieNode.noEmptyPlain_iff root).1 hinv).2
  · intro t' ht'
    cases r with
    | none =>
      cases k with
      | nil =>
        cases ht'
        rfl
      | cons c k => cases ht'
    | some root =>
      obtain ⟨t'', h, hok, _⟩ := Trie.Remove_root_ok root k hinv hkeys
      rw [h] at ht'
      cases ht'
      exact hok
  · intro h
    cases r with
    | none =>
      rcases h with h | h
      · cases h
      · subst h
        exact ⟨_, rfl⟩
    | some root =>
      obtain ⟨t'', h, _⟩ := Trie.Remove_root_ok root k hinv hkeys
      exact ⟨t'', h⟩

end StructuralClaims

section MemoryClaims

variable {Ty : Type} [DecidableEq Ty] {El : Ty → Type}

/-- C14: in a memory without dangling addresses, take the trie `T1` of
root `root_`. `Put` has a result `T2`, and so has `Remove` whenever `T1` has
a root or the key is empty; after every such call each node of the memory
is still there as it was (the calls write to fresh nodes only), and every
`Get` on `T1`, for every key and type, returns what it returned before. -/
theorem C14_writers_leave_input_unchanged (T : Ty) (h : Mem.Heap El) (root_ : Option Nat)
    (k : List Char) (v : El T)
    (hclosed : Mem.Closed h) (hroot : ∀ r, root_ = some r → r < h.length) :
    (∃ h' root', Mem.Put T h root_ k v = some (h', root') ∧ Mem.Extends h h' ∧
        ∀ (T' : Ty) (k' : List Char), Mem.Get T' h' root_ k' = Mem.Get T' h root_ k') ∧
      (∀ h' root', Mem.Remove h root_ k = some (h', root') → Mem.Extends h h' ∧
        ∀ (T' : Ty) (k' : List Char), Mem.Get T' h' root_ k' = Mem.Get T' h root_ k') ∧
      (root_.isSome = true ∨ k = [] → ∃ h' root', Mem.Remove h root_ k = some (h', root')) := by
  refine ⟨?_, ?_, Mem.Remove_total h root_ k hclosed hroot⟩
  · obtain ⟨h', r, hp⟩ := Mem.Put_total T h root_ k v hclosed hroot
    have hext := Mem.Extends.of_prefix h h' (Mem.Put_append T h root_ k v h' _ hp)
    exact ⟨h', some r, hp, hext,
      fun T' k' => Mem.Get_frame T' h h' root_ k' hclosed hroot hext⟩
  · intro h' root' hp
    have hext := Mem.Extends.of_prefix h h' (Mem.Remove_append h root_ k h' root' hp)
    exact ⟨hext, fun T' k' => Mem.Get_frame T' h h' root_ k' hclosed hroot hext⟩

end MemoryClaims

/-! ## Concrete runs -/

section Runs

open ValueType

/-- C4, at a concrete input: after `Put("ac", 7)` on the empty trie,
`Put("ab", 2)` leaves `Get("ac")` as it was. -/
theorem C4_get_put_frame_witness :
    (¬ ['a', 'b'] <+: ['a', 'c']) ∧
      ∃ t', (⟨some (.mk [('a', .mk [('c', .mk [] (some ⟨uint32, (7 : Nat)⟩))] none)] none)⟩ :
          Trie ValueType.El).Put uint32 ['a', 'b'] (2 : Nat) = some t' ∧
        t'.Get uint32 ['a', 'c'] =
          (⟨some (.mk [('a', .mk [('c', .mk [] (some ⟨uint32, (7 : Nat)⟩))] none)] none)⟩ :
            Trie ValueType.El).Get uint32 ['a', 'c'] :=
  ⟨by decide, C4_get_put_frame uint32 uint32 _ ['a', 'b'] ['a', 'c'] (2 : Nat) (by decide)⟩

/-- C5, at a concrete input: after `Put("a", 1)` and `Put("ab", 2)` from the
empty trie, the key `"b"` is absent. -/
theorem C5_get_never_put_witness :
    (['b'] ∉ ([(['a'], ⟨uint32, (1 : Nat)⟩), (['a', 'b'], ⟨uint32, (2 : Nat)⟩)] :
        List (List Char × Value ValueType.El)).map Prod.fst) ∧
      ∃ t', putAll (Trie.emptyTrie : Trie ValueType.El)
          [(['a'], ⟨uint32, (1 : Nat)⟩), (['a', 'b'], ⟨uint32, (2 : Nat)⟩)] = some t' ∧
        t'.Get uint32 ['b'] = none :=
  ⟨by decide, C5_get_never_put _ uint32 ['b'] (by decide)⟩

/-- C2, on the code: after `Put("a", 1)` and `Put("ab", 2)` from the empty
trie, `Get("ab")` returns 2; the further `Put("a", 3)` builds its terminal
node without the children of the old node, and `Get("ab")` returns absent
on its result (while `Get("a")` returns 3). -/
theorem C2_put_drops_longer_keys :
    ∃ t t', putAll (Trie.emptyTrie : Trie ValueType.El)
        [(['a'], ⟨uint32, (1 : Nat)⟩), (['a', 'b'], ⟨uint32, (2 : Nat)⟩)] = some t ∧
      t.Put uint32 ['a'] (3 : Nat) = some t' ∧
      t.Get uint32 ['a', 'b'] = some (2 : Nat) ∧
      t'.Get uint32 ['a', 'b'] = none ∧
      t'.Get uint32 ['a'] = some (3 : Nat) :=
  ⟨_, _, rfl, rfl, rfl, rfl, rfl⟩

/-- C3, on the code: the two calls `Put("ab", 2)`, `Put("a", 1)`, with
distinct keys, from the empty trie give a trie on which `Get("ab")`
returns absent instead of 2. -/
theorem C3_put_sequence_loses_key :
    (['a', 'b'] : List Char) ≠ ['a'] ∧
      ∃ t, putAll (Trie.emptyTrie : Trie ValueType.El)
          [(['a', 'b'], ⟨uint32, (2 : Nat)⟩), (['a'], ⟨uint32, (1 : Nat)⟩)] = some t ∧
        t.Get uint32 ['a', 'b'] = none ∧
        t.Get uint32 ['a'] = some (1 : Nat) :=
  ⟨by decide, _, rfl, rfl, rfl⟩

/-- C6, on the code: after `Put("a", 1)` and `Put("ab", 2)` from the empty
trie, `Remove("ab")` looks for the character `b` among the children of the
root, finds none and returns the trie as it is: `Get("ab")` still
returns 2. -/
theorem C6_remove_keeps_key :
    ∃ t, putAll (Trie.emptyTrie : Trie ValueType.El)
        [(['a'], ⟨uint32, (1 : Nat)⟩), (['a', 'b'], ⟨uint32, (2 : Nat)⟩)] = some t ∧
      t.Remove ['a', 'b'] = some t ∧
      t.Get uint32 ['a', 'b'] = some (2 : Nat) :=
  ⟨_, rfl, rfl, rfl⟩

/-- C7, on the code: after `Put("a", 1)` and `Put("aa", 2)` from the empty
trie, `Remove("aa")` returns a trie whose root is the clone of the node of
`"a"`: the key `"a"`, of which `"aa"` is not a prefix, returned 1 and now
returns absent. -/
theorem C7_remove_disturbs_own_prefix :
    (¬ ['a', 'a'] <+: ['a']) ∧
      ∃ t t', putAll (Trie.emptyTrie : Trie ValueType.El)
          [(['a'], ⟨uint32, (1 : Nat)⟩), (['a', 'a'], ⟨uint32, (2 : Nat)⟩)] = some t ∧
        t.Remove ['a', 'a'] = some t' ∧
        t.Get uint32 ['a'] = some (1 : Nat) ∧
        t'.Get uint32 ['a'] = none :=
  ⟨by decide, _, _, rfl, rfl, rfl, rfl⟩

/-- C8, on the code: after `Put("", 5)` and `Put("a", 1)` from the empty
trie, `Remove("")` returns the empty trie: `Get("")` is absent, and so is
`Get("a")`, which returned 1. -/
theorem C8_remove_empty_key_drops_children :
    ∃ t, putAll (Trie.emptyTrie : Trie ValueType.El)
        [([], ⟨uint32, (5 : Nat)⟩), (['a'], ⟨uint32, (1 : Nat)⟩)] = some t ∧
      t.Remove [] = some Trie.emptyTrie ∧
      t.Get uint32 ['a'] = some (1 : Nat) ∧
      (Trie.emptyTrie : Trie ValueType.El).Get uint32 [] = none ∧
      (Trie.emptyTrie : Trie ValueType.El).Get uint32 ['a'] = none :=
  ⟨_, rfl, rfl, rfl, rfl, rfl⟩

/-- C9, on the code: after `Put("a", 1)` from the empty trie the key
`"aa"` is absent, and `Remove("aa")` returns a trie whose root is a value
node holding 1 without children: `Get("a")` returned 1 and now returns
absent, `Get("")` was absent and now returns 1. -/
theorem C9_remove_absent_key_changes_trie :
    ∃ t t', putAll (Trie.emptyTrie : Trie ValueType.El)
        [(['a'], ⟨uint32, (1 : Nat)⟩)] = some t ∧
      t.Get uint32 ['a', 'a'] = none ∧
      t.Get uint64 ['a', 'a'] = none ∧
      t.Get string ['a', 'a'] = none ∧
      t.Remove ['a', 'a'] = some t' ∧
      t.Get uint32 ['a'] = some (1 : Nat) ∧
      t'.Get uint32 ['a'] = none ∧
      t.Get uint32 [] = none ∧
      t'.Get uint32 [] = some (1 : Nat) :=
  ⟨_, _, rfl, rfl, rfl, rfl, rfl, rfl, rfl, rfl, rfl⟩

/-- C10, on the code: after `Put("ab", 1)` and `Put("b", 2)` from the empty
trie, the walk of `"aa"` from the root reaches the node of `"a"`, which has
no child for the second `a`; `Remove("aa")` does not return the trie as it
is, but one without the child `a` of the root: `Get("ab")` returned 1 and
now returns absent. -/
theorem C10_remove_walk_stays_at_root :
    ∃ t root node_a t', putAll (Trie.emptyTrie : Trie ValueType.El)
        [(['a', 'b'], ⟨uint32, (1 : Nat)⟩), (['b'], ⟨uint32, (2 : Nat)⟩)] = some t ∧
      t.root_ = some root ∧
      Get.walk root ['a'] = some node_a ∧
      Children.find node_a.children_ 'a' = none ∧
      t.Remove ['a', 'a'] = some t' ∧
      t' ≠ t ∧
      t.Get uint32 ['a', 'b'] = some (1 : Nat) ∧
      t'.Get uint32 ['a', 'b'] = none :=
  ⟨_, _, _, _, rfl, rfl, rfl, rfl, rfl,
    fun h => Option.noConfusion
      (show (none : Option (ValueType.El uint32)) = some (1 : Nat) from
        congrArg (fun x => Trie.Get uint32 x ['a', 'b']) h), rfl, rfl⟩

/-- C11, on the code: on the empty trie every non-empty key makes the first
loop of `Remove` read the children of the null root, and the run has no
defined result; only the empty key returns the empty trie. -/
theorem C11_remove_null_root {Ty : Type} {El : Ty → Type} (c : Char) (key : List Char) :
    (Trie.emptyTrie : Trie El).Remove (c :: key) = none ∧
      (Trie.emptyTrie : Trie El).Remove [] = some Trie.emptyTrie :=
  ⟨rfl, rfl⟩

/-- C12, at a concrete input: after `Put<uint32>("a", 1)` on the empty trie,
`Get<uint64>("a")` is absent. -/
theorem C12_get_type_mismatch_witness :
    uint64 ≠ uint32 ∧
      ∃ t', (Trie.emptyTrie : Trie ValueType.El).Put uint32 ['a'] (1 : Nat) = some t' ∧
        t'.Get uint64 ['a'] = none :=
  ⟨by decide, C12_get_type_mismatch uint32 uint64 _ ['a'] (1 : Nat) (by decide)⟩

/-- C15, on the code: after `Put("a", 1)` and `Put("aa", 2)` from the empty
trie, the parent of `"aa"` holds the value 1; `Remove("aa")` keeps and
clones it, then still prunes the root above it, and the clone becomes the
root: `Get("a")` is absent and `Get("")` returns 1. -/
theorem C15_remove_prunes_above_kept_node :
    ∃ t root parent t', putAll (Trie.emptyTrie : Trie ValueType.El)
        [(['a'], ⟨uint32, (1 : Nat)⟩), (['a', 'a'], ⟨uint32, (2 : Nat)⟩)] = some t ∧
      t.root_ = some root ∧
      Get.walk root ['a'] = some parent ∧
      parent.value_ = some ⟨uint32, (1 : Nat)⟩ ∧
      t.Remove ['a', 'a'] = some t' ∧
      t'.root_ = some (parent.Clone.eraseChild 'a') ∧
      t'.Get uint32 ['a'] = none ∧
      t'.Get uint32 [] = some (1 : Nat) :=
  ⟨_, _, _, _, rfl, rfl, rfl, rfl, rfl, rfl, rfl, rfl⟩

/-- C17, at a concrete input: after `Put("ab", 2)` on the empty trie,
`Put("a", 1)` leaves `Get("ab")` absent. -/
theorem C17_put_hides_extensions_witness :
    (['a'] <+: ['a', 'b']) ∧ (['a'] : List Char) ≠ ['a', 'b'] ∧
      ∃ t', (⟨some (.mk [('a', .mk [('b', .mk [] (some ⟨uint32, (2 : Nat)⟩))] none)] none)⟩ :
          Trie ValueType.El).Put uint32 ['a'] (1 : Nat) = some t' ∧
        t'.Get uint32 ['a', 'b'] = none :=
  ⟨by decide, by decide,
    C17_put_hides_extensions uint32 uint32 _ ['a'] ['a', 'b'] (1 : Nat) (by decide) (by decide)⟩

/-- C18, at a concrete input: on the trie of `Put("a", 1)`, `Put("b", 2)`,
`Remove("a")` has a result on which every key starting with `a` is absent
and every other key reads as before. -/
theorem C18_remove_single_char_witness :
    ∃ t', (⟨some (.mk [('a', .mk [] (some ⟨uint32, (1 : Nat)⟩)),
          ('b', .mk [] (some ⟨uint32, (2 : Nat)⟩))] none)⟩ : Trie ValueType.El).Remove ['a']
          = some t' ∧
      (∀ (T' : ValueType) (rest : List Char), t'.Get T' ('a' :: rest) = none) ∧
      (∀ (T' : ValueType) (k' : List Char), ¬ ['a'] <+: k' →
        t'.Get T' k' =
          (⟨some (.mk [('a', .mk [] (some ⟨uint32, (1 : Nat)⟩)),
            ('b', .mk [] (some ⟨uint32, (2 : Nat)⟩))] none)⟩ : Trie ValueType.El).Get T' k') :=
  C18_remove_single_char _ 'a'

/-- C16, at a concrete input: the trie of `Put("a", 1)`, `Put("ab", 2)`
satisfies both hypotheses, and `Put("a", 3)` and `Remove("a")` on it give
tries without a plain node without children. -/
theorem C16_no_empty_plain_preserved_witness :
    sampleTrie.keysDistinct = true ∧ sampleTrie.noEmptyPlain = true ∧
      ((∃ t', sampleTrie.Put uint32 ['a'] (3 : Nat) = some t' ∧ t'.noEmptyPlain = true) ∧
        (∀ t', sampleTrie.Remove ['a'] = some t' → t'.noEmptyPlain = true) ∧
        (sampleTrie.root_.isSome = true ∨ (['a'] : List Char) = [] →
          ∃ t', sampleTrie.Remove ['a'] = some t')) :=
  ⟨by decide, by decide,
    C16_no_empty_plain_preserved uint32 sampleTrie ['a'] (3 : Nat) (by decide) (by decide)⟩

/-- C14, at a concrete input: in the memory left by `Put("a", 1)`, whose
trie has its root at address 3, `Put("ab", 2)` and `Remove("ab")` leave
every node, and every `Get` on that trie, as they were. -/
theorem C14_writers_leave_input_unchanged_witness :
    Mem.Closed Mem.sampleHeap ∧ (∀ r, some 3 = some r → r < Mem.sampleHeap.length) ∧
      ((∃ h' root', Mem.Put uint32 Mem.sampleHeap (some 3) ['a', 'b'] (2 : Nat)
            = some (h', root') ∧ Mem.Extends Mem.sampleHeap h' ∧
          ∀ (T' : ValueType) (k' : List Char),
            Mem.Get T' h' (some 3) k' = Mem.Get T' Mem.sampleHeap (some 3) k') ∧
        (∀ h' root', Mem.Remove Mem.sampleHeap (some 3) ['a', 'b'] = some (h', root') →
          Mem.Extends Mem.sampleHeap h' ∧
          ∀ (T' : ValueType) (k' : List Char),
            Mem.Get T' h' (some 3) k' = Mem.Get T' Mem.sampleHeap (some 3) k') ∧
        ((some 3 : Option Nat).isSome = true ∨ (['a', 'b'] : List Char) = [] →
          ∃ h' root', Mem.Remove Mem.sampleHeap (some 3) ['a', 'b'] = some (h', root'))) :=
  ⟨Mem.Closed.of_forall_mem _ (by decide), fun r hr => by cases hr; decide,
    C14_writers_leave_input_unchanged uint32 Mem.sampleHeap (some 3) ['a', 'b'] (2 : Nat)
      (Mem.Closed.of_forall_mem _ (by decide)) (fun r hr => by cases hr; decide)⟩

end Runs

end bustub
